import Mathlib

/-!
Verification of the signed-download-URL subsystem of the imagestock storefront.

The development shallowly embeds the `utils.js` token signer/verifier
(`generateSignedUrl`, `verifySignedUrl`) and the `/api/download/:id` handler of
`server.js`.  JavaScript's WHATWG `URL` / `URLSearchParams` machinery is modelled
for ASCII inputs: percent-decoding of multi-byte UTF-8 sequences and backslash
normalisation of special-scheme URLs are outside the modelled input domain (no
theorem below exercises them).  A thrown JavaScript exception is modelled as
`Option.none`; HMAC-SHA256 is abstracted as a function parameter
`hmac : String → String → String` (the hex digest as produced by
`crypto.createHmac(...).digest("hex")`).
-/

set_option autoImplicit false
set_option maxRecDepth 40000

namespace ImageStock

/-! ## Character classes -/

/-- Characters serialized verbatim by `URLSearchParams.toString`
(`application/x-www-form-urlencoded` unreserved set). -/
def safeChar (c : Char) : Bool :=
  c.isAlphanum || c = '*' || c = '-' || c = '.' || c = '_'

/-- Characters allowed in a URL scheme after the leading letter. -/
def schemeChar (c : Char) : Bool :=
  c.isAlphanum || c = '+' || c = '-' || c = '.'

/-- Characters that terminate the host component during URL parsing. -/
def hostStop (c : Char) : Bool :=
  c = '/' || c = '?' || c = '#'

/-- Characters that may appear in a modelled pathname. -/
def pathChar (c : Char) : Bool :=
  safeChar c || c = '/'

/-! ## List-splitting primitives -/

/-- Split a list at the first character satisfying `p`; the separator, when
present, starts the second component. -/
def breakAt (p : Char → Bool) : List Char → List Char × List Char
  | [] => ([], [])
  | c :: cs =>
    if p c then ([], c :: cs)
    else
      let r := breakAt p cs
      (c :: r.1, r.2)

/-- Split a list on every occurrence of the character `sep`. -/
def splitOnChar (sep : Char) : List Char → List (List Char)
  | [] => [[]]
  | c :: cs =>
    let r := splitOnChar sep cs
    if c = sep then [] :: r
    else
      match r with
      | [] => [[c]]
      | a :: as => (c :: a) :: as

/-! ## Form encoding and decoding (`application/x-www-form-urlencoded`) -/

/-- Uppercase hexadecimal digit for `n < 16`. -/
def hexDigitUpper (n : Nat) : Char :=
  if n < 10 then Char.ofNat (48 + n) else Char.ofNat (55 + n)

/-- UTF-8 byte sequence of a character (standard range encoding). -/
def utf8BytesOfChar (c : Char) : List Nat :=
  let n := c.toNat
  if n < 0x80 then [n]
  else if n < 0x800 then [0xC0 + n / 64, 0x80 + n % 64]
  else if n < 0x10000 then [0xE0 + n / 4096, 0x80 + (n / 64) % 64, 0x80 + n % 64]
  else [0xF0 + n / 262144, 0x80 + (n / 4096) % 64, 0x80 + (n / 64) % 64, 0x80 + n % 64]

/-- Percent-encoding of a single byte, uppercase hex. -/
def percentByte (b : Nat) : List Char :=
  ['%', hexDigitUpper (b / 16), hexDigitUpper (b % 16)]

/-- Encoding of one character under `URLSearchParams` serialization. -/
def formEncodeChar (c : Char) : List Char :=
  if safeChar c then [c]
  else if c = ' ' then ['+']
  else (utf8BytesOfChar c).flatMap percentByte

/-- `URLSearchParams` serialization of a key or value. -/
def formEncodeL (l : List Char) : List Char := l.flatMap formEncodeChar

/-- Value of a hexadecimal digit character, `none` for non-hex characters. -/
def hexVal (c : Char) : Option Nat :=
  if c.isDigit then some (c.toNat - 48)
  else if 'A' ≤ c ∧ c ≤ 'F' then some (c.toNat - 55)
  else if 'a' ≤ c ∧ c ≤ 'f' then some (c.toNat - 87)
  else none

/-- Fuel-driven percent-decoding loop; the fuel bounds the input length so the
recursion is structural (and kernel-reducible). -/
def formDecodeAux : Nat → List Char → List Char
  | 0, _ => []
  | _ + 1, [] => []
  | fuel + 1, c :: rest =>
    if c = '+' then ' ' :: formDecodeAux fuel rest
    else if c = '%' then
      match rest with
      | a :: b :: rest2 =>
        match hexVal a, hexVal b with
        | some x, some y => Char.ofNat (16 * x + y) :: formDecodeAux fuel rest2
        | _, _ => '%' :: formDecodeAux fuel rest
      | _ => '%' :: formDecodeAux fuel rest
    else c :: formDecodeAux fuel rest

/-- Percent-decoding as performed when `URLSearchParams` parses a query string.
Single-byte (ASCII) percent sequences are decoded; multi-byte UTF-8 sequences
are outside the modelled input domain and their first byte is decoded as the
corresponding code point. -/
def formDecodeL (l : List Char) : List Char := formDecodeAux l.length l

/-! ## `URLSearchParams` operations

The parameter list keeps insertion order, as `URLSearchParams` does.
`setParam` mirrors `searchParams.set` (replace the first binding in place,
drop later bindings of the same name, append if absent), `getParam` mirrors
`searchParams.get` (first binding), and `deleteParam` mirrors
`searchParams.delete` (remove all bindings). -/

def getParam : List (String × String) → String → Option String
  | [], _ => none
  | (k', v') :: rest, k => if k' = k then some v' else getParam rest k

def deleteParam : List (String × String) → String → List (String × String)
  | [], _ => []
  | (k', v') :: rest, k =>
    if k' = k then deleteParam rest k else (k', v') :: deleteParam rest k

def setParam : List (String × String) → String → String → List (String × String)
  | [], k, v => [(k, v)]
  | (k', v') :: rest, k, v =>
    if k' = k then (k, v) :: deleteParam rest k else (k', v') :: setParam rest k v

/-! ## Query-string serialization and parsing -/

/-- `URLSearchParams.toString` serialization of one `key=value` pair. -/
def serializePairL (kv : String × String) : List Char :=
  formEncodeL kv.1.data ++ '=' :: formEncodeL kv.2.data

/-- Join serialized pairs with `&`. -/
def joinAmp : List (List Char) → List Char
  | [] => []
  | [x] => x
  | x :: y :: ys => x ++ '&' :: joinAmp (y :: ys)

/-- `URLSearchParams.toString`: ordered serialization of the whole parameter list. -/
def serializeQuery (ps : List (String × String)) : String :=
  ⟨joinAmp (ps.map serializePairL)⟩

/-- Parse one `key=value` segment of a query string (`key` if no `=`). -/
def parsePairL (l : List Char) : String × String :=
  let r := breakAt (fun c => c = '=') l
  match r.2 with
  | _ :: v => (⟨formDecodeL r.1⟩, ⟨formDecodeL v⟩)
  | [] => (⟨formDecodeL r.1⟩, "")

/-- `URLSearchParams` parsing of a raw query string: split on `&`, drop empty
segments, split each segment at the first `=`, percent-decode both sides. -/
def parseQueryL (q : List Char) : List (String × String) :=
  ((splitOnChar '&' q).filter (fun l => !l.isEmpty)).map parsePairL

/-- All characters of a string are form-safe. -/
def safeStrB (s : String) : Bool := s.data.all safeChar

/-- All keys and values of a parameter list are form-safe. -/
def safeParamsB (ps : List (String × String)) : Bool :=
  ps.all (fun kv => safeStrB kv.1 && safeStrB kv.2)

/-! ## Decimal rendering and `parseInt(_, 10)` -/

/-- Decimal digit character for `d < 10`. -/
def digitChar (d : Nat) : Char := Char.ofNat (48 + d)

/-- Fuel-driven decimal rendering (structural, kernel-reducible). -/
def natToDecAux : Nat → Nat → List Char
  | 0, _ => []
  | fuel + 1, n =>
    if n < 10 then [digitChar n]
    else natToDecAux fuel (n / 10) ++ [digitChar (n % 10)]

/-- Decimal string of a natural number, as JavaScript number-to-string coercion
produces for the integral `exp` value. -/
def natToDecimal (n : Nat) : String := ⟨natToDecAux (n + 1) n⟩

/-- Value of a list of decimal digit characters. -/
def digitsVal (l : List Char) : Nat :=
  l.foldl (fun a c => 10 * a + (c.toNat - 48)) 0

/-- Value of the longest leading run of decimal digits, `none` if there is none
(the digit-consuming core of JavaScript `parseInt`). -/
def leadingDigits (l : List Char) : Option Nat :=
  let ds := l.takeWhile (fun c => c.isDigit)
  if ds.isEmpty then none else some (digitsVal ds)

/-- JavaScript `parseInt(s, 10)`: skip leading whitespace, optional sign, then
the longest digit run; `none` models `NaN`. -/
def parseInt10 (s : String) : Option Int :=
  match s.data.dropWhile (fun c => c.isWhitespace) with
  | [] => none
  | c :: rest =>
    if c = '-' then (leadingDigits rest).map (fun n => -(n : Int))
    else if c = '+' then (leadingDigits rest).map (fun n => (n : Int))
    else (leadingDigits (c :: rest)).map (fun n => (n : Int))

/-- The ten decimal digit characters. -/
def digitList : List Char := ['0', '1', '2', '3', '4', '5', '6', '7', '8', '9']

/-! ## WHATWG `URL` model (ASCII fragment)

`new URL(input)` is modelled for absolute URLs `scheme:[//]host[/path][?query][#fragment]`.
A failed parse (`none`) corresponds to the constructor throwing `ERR_INVALID_URL`.
Lower-casing of scheme/host, dot-segment removal, backslash normalisation and
percent-encoding of exotic path characters are outside the modelled input
domain; no theorem below depends on inputs that would trigger them. -/

structure Url where
  scheme : String
  host : String
  pathname : String
  params : List (String × String)
deriving Repr, DecidableEq

/-- Parse the part of a URL after the host: strip the fragment, split path from
query at the first `?`, default the pathname to `/`. -/
def restParse (rest : List Char) : String × List (String × String) :=
  let beforeFrag := (breakAt (fun c => c = '#') rest).1
  let pr := breakAt (fun c => c = '?') beforeFrag
  let query : List Char :=
    match pr.2 with
    | _ :: q => q
    | [] => []
  let pathname : List Char := if pr.1.isEmpty then ['/'] else pr.1
  (⟨pathname⟩, parseQueryL query)

/-- `new URL(s)` for an absolute URL string (throw modelled as `none`). -/
def parseUrl (s : String) : Option Url :=
  let r1 := breakAt (fun c => c = ':') s.data
  match r1.2 with
  | [] => none
  | _ :: r2 =>
    match r1.1 with
    | [] => none
    | c0 :: sch =>
      if c0.isAlpha && (c0 :: sch).all schemeChar then
        let r3 := r2.dropWhile (fun c => c = '/')
        let hr := breakAt hostStop r3
        if hr.1.isEmpty then none
        else
          let pp := restParse hr.2
          some ⟨⟨c0 :: sch⟩, ⟨hr.1⟩, pp.1, pp.2⟩
      else none

/-- Well-formed scheme: nonempty, leading letter, scheme characters only. -/
def wfSchemeB (s : String) : Bool :=
  match s.data with
  | [] => false
  | c :: _ => c.isAlpha && s.data.all schemeChar

/-- Well-formed host: nonempty and free of `/`, `?`, `#`. -/
def wfHostB (h : String) : Bool :=
  !h.data.isEmpty && h.data.all (fun c => !hostStop c)

/-- Modelled server-relative path: starts with `/`, path characters only. -/
def safePathB (p : String) : Bool :=
  match p.data with
  | [] => false
  | c :: _ => c = '/' && p.data.all pathChar

/-! ## The token signer and verifier (`utils.js`)

`hmac secret data` stands for
`crypto.createHmac("sha256", secret).update(data).digest("hex")`; the digest
function itself is opaque to this development and is passed as a parameter. -/

/-- Byte length of a character under UTF-8. -/
def charUtf8Size (c : Char) : Nat :=
  if c.toNat < 0x80 then 1
  else if c.toNat < 0x800 then 2
  else if c.toNat < 0x10000 then 3
  else 4

/-- Byte length of `Buffer.from(s)` (UTF-8). -/
def utf8Len (s : String) : Nat := s.data.foldl (fun n c => n + charUtf8Size c) 0

/-- `crypto.timingSafeEqual(Buffer.from(a), Buffer.from(b))` wrapped in the
verifier's `try/catch`: the length-mismatch throw is caught and yields `false`;
equal-length buffers compare equal iff the strings are equal (UTF-8 encoding is
injective). -/
def timingSafeEqual (a b : String) : Bool :=
  if utf8Len a = utf8Len b then a == b else false

/-- `generateSignedUrl(url, lifetime)` from `utils.js`: parse the absolute URL,
set `exp = now + lifetime`, HMAC the canonical string
`pathname + "?" + searchParams.toString()`, set `sig`, and return the
server-relative `pathname + "?" + query`.  `none` models the `new URL(url)`
constructor throwing. -/
def generateSignedUrl (hmac : String → String → String) (secret : String) (now : Nat)
    (url : String) (lifetime : Nat := 300) : Option String :=
  match parseUrl url with
  | none => none
  | some parsed =>
    let expiry := now + lifetime
    let ps1 := setParam parsed.params "exp" (natToDecimal expiry)
    let data := parsed.pathname ++ "?" ++ serializeQuery ps1
    let signature := hmac secret data
    let ps2 := setParam ps1 "sig" signature
    some (parsed.pathname ++ "?" ++ serializeQuery ps2)

/-- `verifySignedUrl(fullPath)` from `utils.js`: parse, read `exp` with
`parseInt(_, 10)` and `sig`, reject falsy values (`NaN`/`0` exp, missing/empty
sig), reject strictly-expired tokens (`now > exp`), delete `sig`, recompute the
HMAC over the canonical string and compare in constant time.  `none` models the
`new URL(fullPath)` constructor throwing; the `try/catch` around
`timingSafeEqual` is folded into `timingSafeEqual` itself. -/
def verifySignedUrl (hmac : String → String → String) (secret : String) (now : Nat)
    (fullPath : String) : Option Bool :=
  match parseUrl fullPath with
  | none => none
  | some parsed =>
    match (match getParam parsed.params "exp" with
           | none => none
           | some s => parseInt10 s : Option Int) with
    | none => some false
    | some e =>
      match getParam parsed.params "sig" with
      | none => some false
      | some sg =>
        if e == 0 || sg == "" then some false
        else if (now : Int) > e then some false
        else
          some (timingSafeEqual sg
            (hmac secret (parsed.pathname ++ "?" ++
              serializeQuery (deleteParam parsed.params "sig"))))

/-- The verifier's parsed expiry: `parseInt(searchParams.get("exp"), 10)`,
`none` for `NaN`. -/
def expValue (u : Url) : Option Int :=
  match getParam u.params "exp" with
  | none => none
  | some s => parseInt10 s

/-- The signature the verifier recomputes: HMAC over
`pathname + "?" + serialization of the parameters without sig`. -/
def expectedSig (hmac : String → String → String) (secret : String) (u : Url) : String :=
  hmac secret (u.pathname ++ "?" ++ serializeQuery (deleteParam u.params "sig"))

/-- The boolean the verifier returns on a successfully parsed URL. -/
def verdict (hmac : String → String → String) (secret : String) (now : Nat) (u : Url) : Bool :=
  match expValue u with
  | none => false
  | some e =>
    match getParam u.params "sig" with
    | none => false
    | some sg =>
      if e == 0 || sg == "" then false
      else if (now : Int) > e then false
      else timingSafeEqual sg (expectedSig hmac secret u)

/-! ## The download endpoint (`server.js`, `GET /api/download/:id`)

The handler is modelled as a pure function of the request and an environment
snapshot (sales ledger, images catalog, secret, clock).  Its result pairs the
terminal outcome with the ordered trace of database queries issued, so the
admission-control order (parameter check, then signature check, then ledger
lookup) is visible in the model. -/

def YOUR_DOMAIN : String := "https://imagestock-shop.onrender.com"

structure SaleRecord where
  imageId : String
  transactionId : String
deriving Repr, DecidableEq

structure ImageRecord where
  id : String
  name : String
  url : String
deriving Repr, DecidableEq

/-- Process-level environment the handler closes over. -/
structure Env where
  hmac : String → String → String
  secret : String
  now : Nat
  sales : List SaleRecord
  images : List ImageRecord

/-- The pieces of the HTTP request the handler reads: the `:id` route
parameter, `req.query.tx`, and `req.originalUrl` (path plus query string). -/
structure DownloadRequest where
  imageId : String
  tx : Option String
  originalUrl : String
deriving Repr, DecidableEq

/-- Terminal outcomes of the handler, one per `return`/stream site. -/
inductive Outcome where
  /-- 401 `Missing transaction token` -/
  | missingTx
  /-- 403 `Invalid or expired link` -/
  | invalidLink
  /-- 403 `Unauthorized download` -/
  | unauthorizedDownload
  /-- 404 `Image not found` -/
  | imageNotFound
  /-- the stored image URL is fetched and its bytes piped to the response -/
  | streamed (url : String)
  /-- an exception escaped the handler (the verifier threw) -/
  | exnEscaped
deriving Repr, DecidableEq

/-- A `pool.query` call, in the order the handler issues them. -/
inductive DbQuery where
  | salesLookup (imageId transactionId : String)
  | imagesLookup (imageId : String)
deriving Repr, DecidableEq

/-- `app.get("/api/download/:id", ...)` from `server.js`. -/
def downloadHandler (env : Env) (req : DownloadRequest) : Outcome × List DbQuery :=
  match req.tx with
  | none => (.missingTx, [])
  | some tx =>
    if tx == "" then (.missingTx, [])
    else
      match verifySignedUrl env.hmac env.secret env.now (YOUR_DOMAIN ++ req.originalUrl) with
      | none => (.exnEscaped, [])
      | some false => (.invalidLink, [])
      | some true =>
        match env.sales.find? (fun s => s.imageId == req.imageId && s.transactionId == tx) with
        | none => (.unauthorizedDownload, [.salesLookup req.imageId tx])
        | some _ =>
          match env.images.find? (fun i => i.id == req.imageId) with
          | none => (.imageNotFound, [.salesLookup req.imageId tx, .imagesLookup req.imageId])
          | some img =>
            (.streamed img.url, [.salesLookup req.imageId tx, .imagesLookup req.imageId])

/-! ## A concrete keyed digest for witnesses

Real HMAC-SHA256 cannot be reasoned about symbolically; theorems that need
collision-freedom take it as a hypothesis on the abstract `hmac` parameter.
`hmacModel` is a concrete, injective-per-key digest used by the witness
theorems to show those hypotheses are satisfiable: it renders every character
as `.` followed by its decimal code point, which keeps the output inside the
form-safe alphabet. -/

def safeEnc (s : String) : String :=
  ⟨s.data.flatMap (fun c => '.' :: (natToDecimal c.toNat).data)⟩

def hmacModel (secret msg : String) : String :=
  safeEnc secret ++ "-" ++ safeEnc msg

/-! ## Concrete witness material

A token for asset 42 and transaction `pi_123`, signed with secret `"k"` under
the model digest with `exp = 1000`, plus tampered/degenerate variants. -/

/-- Canonical string of the witness token (before `sig` is appended). -/
def tokData : String := "/api/download/42?tx=pi_123&exp=1000"

/-- The witness token's signature. -/
def tokSig : String := hmacModel "k" tokData

/-- Server-relative signed URL of the witness token. -/
def tokUrl : String := "/api/download/42?tx=pi_123&exp=1000&sig=" ++ tokSig

/-- Same URL with a wrong signature. -/
def tokBadUrl : String := "/api/download/42?tx=pi_123&exp=1000&sig=deadbeef"

/-- The parse of the witness token under the server's domain. -/
def tokParsed : Url :=
  ⟨"https", "imagestock-shop.onrender.com", "/api/download/42",
    [("tx", "pi_123"), ("exp", "1000"), ("sig", tokSig)]⟩

/-- Witness environment: model digest, secret `"k"`, clock 5, empty ledger and
catalog. -/
def wEnv : Env := ⟨hmacModel, "k", 5, [], []⟩

/-- Witness environment with the matching sale recorded and the image present. -/
def wEnvSold : Env :=
  ⟨hmacModel, "k", 5, [⟨"42", "pi_123"⟩], [⟨"42", "Mountain", "https://origin/42.jpg"⟩]⟩

/-- Request carrying the valid witness token. -/
def wReqGood : DownloadRequest := ⟨"42", some "pi_123", tokUrl⟩

/-- Request with no `tx` query parameter. -/
def wReqMissing : DownloadRequest := ⟨"42", none, tokUrl⟩

/-- Request whose token signature is wrong. -/
def wReqBad : DownloadRequest := ⟨"42", some "pi_123", tokBadUrl⟩

/-- Canonical string of a token whose `exp` is the literal `0`. -/
def zeroData : String := "/x?exp=0"

/-- Correct signature over the `exp=0` canonical string. -/
def zeroSig : String := hmacModel "k" zeroData

/-- An `exp=0` token whose signature is valid. -/
def zeroUrl : String := "https://h/x?exp=0&sig=" ++ zeroSig

theorem breakAt_nil (p : Char → Bool) : breakAt p [] = ([], []) := rfl

theorem breakAt_cons_pos (p : Char → Bool) (c : Char) (cs : List Char) (h : p c = true) :
    breakAt p (c :: cs) = ([], c :: cs) := by
  simp [breakAt, h]

theorem breakAt_cons_neg (p : Char → Bool) (c : Char) (cs : List Char) (h : p c = false) :
    breakAt p (c :: cs) = (c :: (breakAt p cs).1, (breakAt p cs).2) := by
  simp [breakAt, h]

theorem breakAt_all_neg (p : Char → Bool) (l : List Char) (h : ∀ c ∈ l, p c = false) :
    breakAt p l = (l, []) := by
  induction l with
  | nil => rfl
  | cons c cs ih =>
    rw [breakAt_cons_neg p c cs (h c (List.mem_cons_self c cs))]
    rw [ih (fun x hx => h x (List.mem_cons_of_mem c hx))]

theorem breakAt_append_sep (p : Char → Bool) (a : List Char) (d : Char) (r : List Char)
    (ha : ∀ c ∈ a, p c = false) (hd : p d = true) :
    breakAt p (a ++ d :: r) = (a, d :: r) := by
  induction a with
  | nil => simpa using breakAt_cons_pos p d r hd
  | cons c cs ih =>
    rw [List.cons_append, breakAt_cons_neg p c _ (ha c (List.mem_cons_self c cs))]
    rw [ih (fun x hx => ha x (List.mem_cons_of_mem c hx))]

theorem splitOnChar_nil (sep : Char) : splitOnChar sep [] = [[]] := rfl

theorem splitOnChar_ne_nil (sep : Char) (l : List Char) : splitOnChar sep l ≠ [] := by
  cases l with
  | nil => simp [splitOnChar]
  | cons c cs =>
    simp only [splitOnChar]
    by_cases h : c = sep
    · simp [h]
    · simp only [if_neg h]
      cases splitOnChar sep cs with
      | nil => simp
      | cons a as => simp

theorem splitOnChar_sep_free (sep : Char) (l : List Char) (h : ∀ c ∈ l, c ≠ sep) :
    splitOnChar sep l = [l] := by
  induction l with
  | nil => rfl
  | cons c cs ih =>
    simp only [splitOnChar]
    rw [if_neg (h c (List.mem_cons_self c cs))]
    rw [ih (fun x hx => h x (List.mem_cons_of_mem c hx))]

theorem splitOnChar_append (sep : Char) (a r : List Char) (ha : ∀ c ∈ a, c ≠ sep) :
    splitOnChar sep (a ++ sep :: r) = a :: splitOnChar sep r := by
  induction a with
  | nil => simp [splitOnChar]
  | cons c cs ih =>
    rw [List.cons_append]
    simp only [splitOnChar]
    rw [if_neg (ha c (List.mem_cons_self c cs))]
    rw [ih (fun x hx => ha x (List.mem_cons_of_mem c hx))]

theorem safeChar_ne (c : Char) (h : safeChar c = true) :
    c ≠ '&' ∧ c ≠ '=' ∧ c ≠ '?' ∧ c ≠ '#' ∧ c ≠ '+' ∧ c ≠ '%' ∧ c ≠ ':' ∧ c ≠ '/' := by
  refine ⟨?_, ?_, ?_, ?_, ?_, ?_, ?_, ?_⟩ <;>
    · intro hc
      subst hc
      exact absurd h (by decide)

theorem formEncodeChar_safe (c : Char) (h : safeChar c = true) : formEncodeChar c = [c] := by
  simp [formEncodeChar, h]

theorem formEncodeL_safe (l : List Char) (h : ∀ c ∈ l, safeChar c = true) :
    formEncodeL l = l := by
  induction l with
  | nil => rfl
  | cons c cs ih =>
    simp only [formEncodeL, List.flatMap_cons]
    rw [formEncodeChar_safe c (h c (List.mem_cons_self c cs))]
    have := ih (fun x hx => h x (List.mem_cons_of_mem c hx))
    simp only [formEncodeL] at this
    rw [this]
    rfl

theorem formDecodeAux_safe (fuel : Nat) (l : List Char) (hf : l.length ≤ fuel)
    (h : ∀ c ∈ l, safeChar c = true) : formDecodeAux fuel l = l := by
  induction fuel generalizing l with
  | zero =>
    have : l = [] := List.eq_nil_of_length_eq_zero (Nat.le_zero.mp hf)
    subst this
    rfl
  | succ fuel ih =>
    cases l with
    | nil => rfl
    | cons c cs =>
      have hc := safeChar_ne c (h c (List.mem_cons_self c cs))
      simp only [formDecodeAux]
      rw [if_neg hc.2.2.2.2.1, if_neg hc.2.2.2.2.2.1]
      rw [ih cs (by simpa using Nat.le_of_succ_le_succ hf)
        (fun x hx => h x (List.mem_cons_of_mem c hx))]

theorem formDecodeL_safe (l : List Char) (h : ∀ c ∈ l, safeChar c = true) :
    formDecodeL l = l :=
  formDecodeAux_safe l.length l (Nat.le_refl _) h

theorem getParam_eq_none_iff (ps : List (String × String)) (k : String) :
    getParam ps k = none ↔ ∀ p ∈ ps, p.1 ≠ k := by
  induction ps with
  | nil => simp [getParam]
  | cons p rest ih =>
    obtain ⟨k', v'⟩ := p
    by_cases h : k' = k
    · simp [getParam, h]
    · simp [getParam, h, ih]

theorem getParam_append_left (l1 l2 : List (String × String)) (k : String) (v : String)
    (h : getParam l1 k = some v) : getParam (l1 ++ l2) k = some v := by
  induction l1 with
  | nil => simp [getParam] at h
  | cons p rest ih =>
    obtain ⟨k', v'⟩ := p
    by_cases hk : k' = k
    · simp_all [getParam]
    · simp_all [getParam]

theorem getParam_append_right (l1 l2 : List (String × String)) (k : String)
    (h : getParam l1 k = none) : getParam (l1 ++ l2) k = getParam l2 k := by
  induction l1 with
  | nil => rfl
  | cons p rest ih =>
    obtain ⟨k', v'⟩ := p
    by_cases hk : k' = k
    · simp [getParam, hk] at h
    · simp_all [getParam]

theorem deleteParam_append (l1 l2 : List (String × String)) (k : String) :
    deleteParam (l1 ++ l2) k = deleteParam l1 k ++ deleteParam l2 k := by
  induction l1 with
  | nil => rfl
  | cons p rest ih =>
    obtain ⟨k', v'⟩ := p
    by_cases hk : k' = k
    · simp [deleteParam, hk, ih]
    · simp [deleteParam, hk, ih]

theorem deleteParam_of_getParam_none (ps : List (String × String)) (k : String)
    (h : getParam ps k = none) : deleteParam ps k = ps := by
  induction ps with
  | nil => rfl
  | cons p rest ih =>
    obtain ⟨k', v'⟩ := p
    by_cases hk : k' = k
    · simp [getParam, hk] at h
    · simp only [getParam, if_neg hk] at h
      simp [deleteParam, hk, ih h]

theorem setParam_of_getParam_none (ps : List (String × String)) (k v : String)
    (h : getParam ps k = none) : setParam ps k v = ps ++ [(k, v)] := by
  induction ps with
  | nil => rfl
  | cons p rest ih =>
    obtain ⟨k', v'⟩ := p
    by_cases hk : k' = k
    · simp [getParam, hk] at h
    · simp only [getParam, if_neg hk] at h
      simp [setParam, hk, ih h]

theorem getParam_setParam_same (ps : List (String × String)) (k v : String) :
    getParam (setParam ps k v) k = some v := by
  induction ps with
  | nil => simp [setParam, getParam]
  | cons p rest ih =>
    obtain ⟨k', v'⟩ := p
    by_cases hk : k' = k
    · simp [setParam, hk, getParam]
    · simp [setParam, hk, getParam, ih]

theorem getParam_deleteParam_ne (ps : List (String × String)) (k k' : String) (h : k' ≠ k) :
    getParam (deleteParam ps k) k' = getParam ps k' := by
  induction ps with
  | nil => rfl
  | cons p rest ih =>
    obtain ⟨k0, v0⟩ := p
    by_cases hk : k0 = k
    · subst hk
      simp only [deleteParam, if_pos rfl, getParam]
      rw [if_neg (fun hh : k0 = k' => h hh.symm)]
      exact ih
    · simp [deleteParam, hk, getParam, ih]

theorem getParam_setParam_ne (ps : List (String × String)) (k v k' : String) (h : k' ≠ k) :
    getParam (setParam ps k v) k' = getParam ps k' := by
  induction ps with
  | nil => simp [setParam, getParam]; exact fun hh : k = k' => h hh.symm
  | cons p rest ih =>
    obtain ⟨k0, v0⟩ := p
    by_cases hk : k0 = k
    · subst hk
      simp only [setParam, if_pos rfl, getParam, if_neg (fun hh : k0 = k' => h hh.symm)]
      exact getParam_deleteParam_ne rest k0 k' h
    · simp [setParam, hk, getParam, ih]

theorem joinAmp_cons_ne (x : List Char) (l : List (List Char)) (h : l ≠ []) :
    joinAmp (x :: l) = x ++ '&' :: joinAmp l := by
  cases l with
  | nil => exact absurd rfl h
  | cons y ys => rfl

theorem serializePairL_safe (k v : String) (hk : safeStrB k = true) (hv : safeStrB v = true) :
    serializePairL (k, v) = k.data ++ '=' :: v.data := by
  simp only [serializePairL]
  rw [formEncodeL_safe k.data (by simpa [safeStrB, List.all_eq_true] using hk)]
  rw [formEncodeL_safe v.data (by simpa [safeStrB, List.all_eq_true] using hv)]

theorem mem_joinAmp (c : Char) (l : List (List Char)) (h : c ∈ joinAmp l) :
    (∃ x ∈ l, c ∈ x) ∨ c = '&' := by
  induction l with
  | nil => simp [joinAmp] at h
  | cons x ys ih =>
    cases ys with
    | nil =>
      simp only [joinAmp] at h
      exact Or.inl ⟨x, List.mem_cons_self x [], h⟩
    | cons y ys' =>
      rw [joinAmp_cons_ne x (y :: ys') (by simp)] at h
      rcases List.mem_append.mp h with hx | hr
      · exact Or.inl ⟨x, List.mem_cons_self x _, hx⟩
      · rcases List.mem_cons.mp hr with rfl | hr'
        · exact Or.inr rfl
        · rcases ih hr' with ⟨z, hz, hcz⟩ | hamp
          · exact Or.inl ⟨z, List.mem_cons_of_mem x hz, hcz⟩
          · exact Or.inr hamp

/-- Characters of a safely-serialized query string: form-safe or `&`/`=`. -/
theorem serializeQuery_chars (ps : List (String × String)) (hps : safeParamsB ps = true)
    (c : Char) (h : c ∈ (serializeQuery ps).data) :
    safeChar c = true ∨ c = '&' ∨ c = '=' := by
  simp only [serializeQuery] at h
  rcases mem_joinAmp c _ h with ⟨x, hx, hcx⟩ | hamp
  · rcases List.mem_map.mp hx with ⟨⟨k, v⟩, hkv, rfl⟩
    have hsafe : safeStrB k = true ∧ safeStrB v = true := by
      have := (List.all_eq_true.mp hps) _ hkv
      simpa using this
    rw [serializePairL_safe k v hsafe.1 hsafe.2] at hcx
    rcases List.mem_append.mp hcx with hk | hv
    · exact Or.inl ((List.all_eq_true.mp hsafe.1) c hk)
    · rcases List.mem_cons.mp hv with rfl | hv'
      · exact Or.inr (Or.inr rfl)
      · exact Or.inl ((List.all_eq_true.mp hsafe.2) c hv')
  · exact Or.inr (Or.inl hamp)

theorem serializePairL_chars_ne_amp (k v : String) (hk : safeStrB k = true)
    (hv : safeStrB v = true) : ∀ c ∈ serializePairL (k, v), c ≠ '&' := by
  intro c hc
  rw [serializePairL_safe k v hk hv] at hc
  rcases List.mem_append.mp hc with h1 | h2
  · exact (safeChar_ne c ((List.all_eq_true.mp hk) c h1)).1
  · rcases List.mem_cons.mp h2 with rfl | h3
    · decide
    · exact (safeChar_ne c ((List.all_eq_true.mp hv) c h3)).1

/-- Round trip: parsing the serialization of a safe parameter list recovers it. -/
theorem parseQueryL_serializeQuery (ps : List (String × String))
    (hps : safeParamsB ps = true) : parseQueryL (serializeQuery ps).data = ps := by
  induction ps with
  | nil => rfl
  | cons kv rest ih =>
    obtain ⟨k, v⟩ := kv
    have hkv : safeStrB k = true ∧ safeStrB v = true := by
      have := (List.all_eq_true.mp hps) _ (List.mem_cons_self _ rest)
      simpa using this
    have hrest : safeParamsB rest = true := by
      simp only [safeParamsB, List.all_cons, Bool.and_eq_true] at hps
      exact hps.2
    have hchunk : serializePairL (k, v) = k.data ++ '=' :: v.data :=
      serializePairL_safe k v hkv.1 hkv.2
    have hchunk_ne : serializePairL (k, v) ≠ [] := by
      rw [hchunk]
      intro hemp
      exact absurd (congrArg List.length hemp) (by simp)
    have hpair : parsePairL (serializePairL (k, v)) = (k, v) := by
      simp only [parsePairL, hchunk]
      rw [breakAt_append_sep (fun c => c = '=') k.data '=' v.data
        (fun c hc => by
          have := (safeChar_ne c ((List.all_eq_true.mp hkv.1) c hc)).2.1
          simpa using this)
        (by simp)]
      simp only
      rw [formDecodeL_safe k.data (List.all_eq_true.mp hkv.1)]
      rw [formDecodeL_safe v.data (List.all_eq_true.mp hkv.2)]
    cases rest with
    | nil =>
      simp only [serializeQuery, List.map_cons, List.map_nil, joinAmp, parseQueryL]
      rw [splitOnChar_sep_free '&' _ (fun c hc hca => by
        exact absurd hca (serializePairL_chars_ne_amp k v hkv.1 hkv.2 c hc))]
      have hne : (!(serializePairL (k, v)).isEmpty) = true := by simpa using hchunk_ne
      simp only [List.filter, hne]
      simp [hpair]
    | cons kv2 rest2 =>
      simp only [serializeQuery, List.map_cons, parseQueryL]
      rw [joinAmp_cons_ne _ _ (by simp)]
      rw [splitOnChar_append '&' _ _
        (fun c hc => serializePairL_chars_ne_amp k v hkv.1 hkv.2 c hc)]
      have hne : (!(serializePairL (k, v)).isEmpty) = true := by simpa using hchunk_ne
      simp only [List.filter, hne]
      simp only [List.map_cons, hpair]
      have := ih hrest
      simp only [serializeQuery, parseQueryL, List.map_cons] at this
      rw [this]

theorem digitList_facts (c : Char) (h : c ∈ digitList) :
    c.isDigit = true ∧ c.isWhitespace = false ∧ safeChar c = true ∧
    c ≠ '-' ∧ c ≠ '+' ∧ c ≠ '.' := by
  fin_cases h <;> refine ⟨by decide, by decide, by decide, by decide, by decide, by decide⟩

theorem digitChar_mem (m : Nat) (h : m < 10) : digitChar m ∈ digitList := by
  interval_cases m <;> decide

theorem digitChar_toNat (m : Nat) (h : m < 10) : (digitChar m).toNat = 48 + m := by
  interval_cases m <;> decide

theorem natToDecAux_mem (fuel n : Nat) (hf : n < fuel) :
    ∀ c ∈ natToDecAux fuel n, c ∈ digitList := by
  induction fuel generalizing n with
  | zero => omega
  | succ fuel ih =>
    intro c hc
    simp only [natToDecAux] at hc
    by_cases h10 : n < 10
    · rw [if_pos h10] at hc
      rcases List.mem_singleton.mp hc with rfl
      exact digitChar_mem n h10
    · rw [if_neg h10] at hc
      rcases List.mem_append.mp hc with h1 | h2
      · have hdiv : n / 10 < fuel := by
          have := Nat.div_lt_self (show 0 < n by omega) (show 1 < 10 by omega)
          omega
        exact ih (n / 10) hdiv c h1
      · rcases List.mem_singleton.mp h2 with rfl
        exact digitChar_mem (n % 10) (Nat.mod_lt n (by omega))

theorem natToDecAux_ne_nil (fuel n : Nat) (hf : n < fuel) : natToDecAux fuel n ≠ [] := by
  cases fuel with
  | zero => omega
  | succ fuel =>
    simp only [natToDecAux]
    by_cases h10 : n < 10
    · simp [h10]
    · simp [h10]

theorem digitsVal_append_digit (l : List Char) (m : Nat) (h : m < 10) :
    digitsVal (l ++ [digitChar m]) = 10 * digitsVal l + m := by
  simp only [digitsVal, List.foldl_append, List.foldl_cons, List.foldl_nil]
  rw [digitChar_toNat m h]
  omega

theorem natToDecAux_val (fuel n : Nat) (hf : n < fuel) :
    digitsVal (natToDecAux fuel n) = n := by
  induction fuel generalizing n with
  | zero => omega
  | succ fuel ih =>
    simp only [natToDecAux]
    by_cases h10 : n < 10
    · rw [if_pos h10]
      simp only [digitsVal, List.foldl_cons, List.foldl_nil]
      rw [digitChar_toNat n h10]
      omega
    · rw [if_neg h10]
      have hdiv : n / 10 < fuel := by
        have := Nat.div_lt_self (show 0 < n by omega) (show 1 < 10 by omega)
        omega
      rw [digitsVal_append_digit _ _ (Nat.mod_lt n (by omega))]
      rw [ih (n / 10) hdiv]
      omega

theorem natToDecimal_mem (n : Nat) : ∀ c ∈ (natToDecimal n).data, c ∈ digitList :=
  natToDecAux_mem (n + 1) n (Nat.lt_succ_self n)

theorem natToDecimal_safe (n : Nat) : safeStrB (natToDecimal n) = true := by
  simp only [safeStrB, List.all_eq_true]
  intro c hc
  exact (digitList_facts c (natToDecimal_mem n c hc)).2.2.1

theorem takeWhile_all (p : Char → Bool) (l : List Char) (h : ∀ c ∈ l, p c = true) :
    l.takeWhile p = l := by
  induction l with
  | nil => rfl
  | cons c cs ih =>
    rw [List.takeWhile_cons_of_pos (h c (List.mem_cons_self c cs))]
    rw [ih (fun x hx => h x (List.mem_cons_of_mem c hx))]

/-- Round trip: JavaScript `parseInt` recovers the decimal rendering. -/
theorem parseInt10_natToDecimal (n : Nat) : parseInt10 (natToDecimal n) = some (n : Int) := by
  have hmem := natToDecimal_mem n
  have hne : (natToDecimal n).data ≠ [] := natToDecAux_ne_nil (n + 1) n (Nat.lt_succ_self n)
  obtain ⟨c, rest, hdata⟩ := List.exists_cons_of_ne_nil hne
  have hc := digitList_facts c (hmem c (hdata ▸ List.mem_cons_self c rest))
  have hdw : (natToDecimal n).data.dropWhile (fun x => x.isWhitespace) = c :: rest := by
    rw [hdata, List.dropWhile_cons, if_neg (by simp [hc.2.1])]
  simp only [parseInt10, hdw]
  rw [if_neg hc.2.2.2.1, if_neg hc.2.2.2.2.1]
  have hall : ∀ x ∈ c :: rest, x.isDigit = true := by
    intro x hx
    exact (digitList_facts x (hmem x (hdata ▸ hx))).1
  simp only [leadingDigits]
  rw [takeWhile_all _ _ hall]
  rw [if_neg (by simp)]
  have hval : digitsVal (c :: rest) = n := by
    have hv := natToDecAux_val (n + 1) n (Nat.lt_succ_self n)
    have hd : natToDecAux (n + 1) n = (natToDecimal n).data := rfl
    rw [hd, hdata] at hv
    exact hv
  simp [hval]

theorem natToDecimal_inj (a b : Nat) (h : natToDecimal a = natToDecimal b) : a = b := by
  have ha := parseInt10_natToDecimal a
  have hb := parseInt10_natToDecimal b
  rw [h] at ha
  rw [ha] at hb
  exact_mod_cast Option.some.inj hb

theorem schemeChar_ne_colon (c : Char) (h : schemeChar c = true) : c ≠ ':' := by
  intro hc
  subst hc
  exact absurd h (by decide)

theorem hostStop_false_ne (c : Char) (h : hostStop c = false) :
    c ≠ '/' ∧ c ≠ '?' ∧ c ≠ '#' := by
  simp only [hostStop, Bool.or_eq_false_iff, decide_eq_false_iff_not] at h
  exact ⟨h.1.1, h.1.2, h.2⟩

theorem pathChar_ne (c : Char) (h : pathChar c = true) :
    c ≠ '?' ∧ c ≠ '#' ∧ c ≠ ':' ∧ c ≠ '&' ∧ c ≠ '=' := by
  simp only [pathChar, Bool.or_eq_true, decide_eq_true_eq] at h
  rcases h with hs | rfl
  · have := safeChar_ne c hs
    exact ⟨this.2.2.1, this.2.2.2.1, this.2.2.2.2.2.2.1, this.1, this.2.1⟩
  · exact ⟨by decide, by decide, by decide, by decide, by decide⟩

theorem str_data_mk (l : List Char) : (⟨l⟩ : String).data = l := rfl

theorem str_ext (a b : String) (h : a.data = b.data) : a = b := by
  cases a
  cases b
  cases h
  rfl

theorem str_data_append (a b : String) : (a ++ b).data = a.data ++ b.data := by
  cases a
  cases b
  rfl

/-- Decomposition of `parseUrl` on a string of the form `S://H` + rest. -/
theorem parseUrl_split (s S H : String) (rest : List Char)
    (hs : s.data = S.data ++ ':' :: '/' :: '/' :: (H.data ++ rest))
    (hS : wfSchemeB S = true) (hH : wfHostB H = true)
    (hrest : rest = [] ∨ rest.head? = some '/' ∨ rest.head? = some '?') :
    parseUrl s = some ⟨S, H, (restParse rest).1, (restParse rest).2⟩ := by
  obtain ⟨c0, sch, hSdata⟩ : ∃ c h, S.data = c :: h := by
    cases hsd : S.data with
    | nil =>
      simp only [wfSchemeB, hsd] at hS
      exact absurd hS (by decide)
    | cons c h => exact ⟨c, h, rfl⟩
  have hSall : c0.isAlpha = true ∧ ∀ c ∈ S.data, schemeChar c = true := by
    simp only [wfSchemeB, hSdata, Bool.and_eq_true, List.all_eq_true] at hS
    refine ⟨hS.1, ?_⟩
    rw [hSdata]
    exact hS.2
  have hHall : ∀ c ∈ H.data, hostStop c = false := by
    simp only [wfHostB, Bool.and_eq_true, List.all_eq_true, Bool.not_eq_true'] at hH
    exact hH.2
  have hHne : H.data ≠ [] := by
    intro hnil
    simp [wfHostB, hnil] at hH
  obtain ⟨d, H', hHdata⟩ := List.exists_cons_of_ne_nil hHne
  have hbreak : breakAt (fun c => c = ':') s.data =
      (S.data, ':' :: '/' :: '/' :: (H.data ++ rest)) := by
    rw [hs]
    exact breakAt_append_sep _ _ _ _
      (fun c hc => by
        simp only [decide_eq_false_iff_not]
        exact schemeChar_ne_colon c (hSall.2 c hc))
      (by simp)
  have hdrop : List.dropWhile (fun c => c = '/') ('/' :: '/' :: (H.data ++ rest)) =
      H.data ++ rest := by
    rw [List.dropWhile_cons, if_pos (by simp), List.dropWhile_cons, if_pos (by simp)]
    rw [hHdata, List.cons_append, List.dropWhile_cons,
      if_neg (by simpa using (hostStop_false_ne d (hHall d (hHdata ▸ List.mem_cons_self d H'))).1)]
  have hhost : breakAt hostStop (H.data ++ rest) = (H.data, rest) := by
    rcases hrest with rfl | hhd | hhd
    · rw [List.append_nil]
      exact breakAt_all_neg _ _ hHall
    · obtain ⟨r0, rest', hr⟩ : ∃ r0 rest', rest = r0 :: rest' := by
        cases rest with
        | nil => simp at hhd
        | cons a b => exact ⟨a, b, rfl⟩
      have : r0 = '/' := by
        rw [hr] at hhd
        simpa using hhd
      subst this
      rw [hr]
      exact breakAt_append_sep _ _ _ _ hHall (by simp [hostStop])
    · obtain ⟨r0, rest', hr⟩ : ∃ r0 rest', rest = r0 :: rest' := by
        cases rest with
        | nil => simp at hhd
        | cons a b => exact ⟨a, b, rfl⟩
      have : r0 = '?' := by
        rw [hr] at hhd
        simpa using hhd
      subst this
      rw [hr]
      exact breakAt_append_sep _ _ _ _ hHall (by simp [hostStop])
  have hHempty : H.data.isEmpty = false := by
    rw [hHdata]
    rfl
  simp only [parseUrl, hbreak, hSdata]
  rw [if_pos (by rw [← hSdata]; simp only [Bool.and_eq_true, List.all_eq_true]; exact hSall)]
  simp only [hdrop, hhost, hHempty]
  rw [if_neg (by simp)]
  have h1 : (⟨c0 :: sch⟩ : String) = S := str_ext _ _ (by rw [str_data_mk, hSdata])
  have h2 : (⟨H.data⟩ : String) = H := str_ext _ _ (by rw [str_data_mk])
  rw [h1, h2]

theorem safePathB_shape (p : String) (hp : safePathB p = true) :
    (∃ t, p.data = '/' :: t) ∧ ∀ c ∈ p.data, pathChar c = true := by
  cases hpd : p.data with
  | nil =>
    simp only [safePathB, hpd] at hp
    exact absurd hp (by decide)
  | cons c t =>
    simp only [safePathB, hpd, Bool.and_eq_true, decide_eq_true_eq, List.all_eq_true] at hp
    obtain ⟨rfl, hall⟩ := hp
    exact ⟨⟨t, rfl⟩, hall⟩

/-- `parseUrl` on `S://H` + safe path + `?` + safely-serialized query. -/
theorem parseUrl_rendered (S H P : String) (ps : List (String × String))
    (hS : wfSchemeB S = true) (hH : wfHostB H = true) (hP : safePathB P = true)
    (hps : safeParamsB ps = true) :
    parseUrl (S ++ "://" ++ H ++ (P ++ "?" ++ serializeQuery ps)) = some ⟨S, H, P, ps⟩ := by
  obtain ⟨⟨P', hPdata⟩, hPall⟩ := safePathB_shape P hP
  have hrest :
      (P.data ++ '?' :: (serializeQuery ps).data).head? = some '/' := by
    rw [hPdata]
    rfl
  have hs : (S ++ "://" ++ H ++ (P ++ "?" ++ serializeQuery ps)).data =
      S.data ++ ':' :: '/' :: '/' :: (H.data ++ (P.data ++ '?' :: (serializeQuery ps).data)) := by
    have h1 : ("://" : String).data = [':', '/', '/'] := rfl
    have h2 : ("?" : String).data = ['?'] := rfl
    simp [str_data_append, h1, h2, List.append_assoc]
  rw [parseUrl_split _ S H _ hs hS hH (Or.inr (Or.inl hrest))]
  have hnofrag : breakAt (fun c => c = '#') (P.data ++ '?' :: (serializeQuery ps).data) =
      (P.data ++ '?' :: (serializeQuery ps).data, []) := by
    apply breakAt_all_neg
    intro c hc
    simp only [decide_eq_false_iff_not]
    rcases List.mem_append.mp hc with h1 | h2
    · exact (pathChar_ne c (hPall c h1)).2.1
    · rcases List.mem_cons.mp h2 with rfl | h3
      · decide
      · rcases serializeQuery_chars ps hps c h3 with hsafe | rfl | rfl
        · exact (safeChar_ne c hsafe).2.2.2.1
        · decide
        · decide
  have hq : breakAt (fun c => c = '?') (P.data ++ '?' :: (serializeQuery ps).data) =
      (P.data, '?' :: (serializeQuery ps).data) := by
    apply breakAt_append_sep
    · intro c hc
      simp only [decide_eq_false_iff_not]
      exact (pathChar_ne c (hPall c hc)).1
    · simp
  have hPne : P.data.isEmpty = false := by
    rw [hPdata]
    rfl
  simp only [restParse, hnofrag, hq, hPne]
  rw [if_neg (by simp)]
  rw [parseQueryL_serializeQuery ps hps]

/-- `parseUrl` on `S://H` + safe path with no query string. -/
theorem parseUrl_rendered_noq (S H P : String)
    (hS : wfSchemeB S = true) (hH : wfHostB H = true) (hP : safePathB P = true) :
    parseUrl (S ++ "://" ++ H ++ P) = some ⟨S, H, P, []⟩ := by
  obtain ⟨⟨P', hPdata⟩, hPall⟩ := safePathB_shape P hP
  have hs : (S ++ "://" ++ H ++ P).data =
      S.data ++ ':' :: '/' :: '/' :: (H.data ++ P.data) := by
    have h1 : ("://" : String).data = [':', '/', '/'] := rfl
    simp [str_data_append, h1, List.append_assoc]
  have hrest : P.data.head? = some '/' := by
    rw [hPdata]
    rfl
  rw [parseUrl_split _ S H _ hs hS hH (Or.inr (Or.inl hrest))]
  have hnofrag : breakAt (fun c => c = '#') P.data = (P.data, []) := by
    apply breakAt_all_neg
    intro c hc
    simp only [decide_eq_false_iff_not]
    exact (pathChar_ne c (hPall c hc)).2.1
  have hq : breakAt (fun c => c = '?') P.data = (P.data, []) := by
    apply breakAt_all_neg
    intro c hc
    simp only [decide_eq_false_iff_not]
    exact (pathChar_ne c (hPall c hc)).1
  have hPne : P.data.isEmpty = false := by
    rw [hPdata]
    rfl
  simp only [restParse, hnofrag, hq, hPne]
  rw [if_neg (by simp)]
  have h1 : (⟨P.data⟩ : String) = P := str_ext _ _ (by rw [str_data_mk])
  rw [h1]
  rfl

theorem timingSafeEqual_eq_true_iff (a b : String) : timingSafeEqual a b = true ↔ a = b := by
  constructor
  · intro h
    simp only [timingSafeEqual] at h
    by_cases hl : utf8Len a = utf8Len b
    · rw [if_pos hl] at h
      exact beq_iff_eq.mp h
    · rw [if_neg hl] at h
      exact absurd h (by decide)
  · intro h
    subst h
    simp [timingSafeEqual]

theorem timingSafeEqual_self (a : String) : timingSafeEqual a a = true :=
  (timingSafeEqual_eq_true_iff a a).mpr rfl

theorem timingSafeEqual_ne (a b : String) (h : a ≠ b) : timingSafeEqual a b = false := by
  cases hv : timingSafeEqual a b with
  | false => rfl
  | true => exact absurd ((timingSafeEqual_eq_true_iff a b).mp hv) h

theorem generateSignedUrl_parse (hmac : String → String → String) (secret : String)
    (now : Nat) (url : String) (lifetime : Nat) (u : Url) (hp : parseUrl url = some u) :
    generateSignedUrl hmac secret now url lifetime =
      some (u.pathname ++ "?" ++ serializeQuery
        (setParam (setParam u.params "exp" (natToDecimal (now + lifetime))) "sig"
          (hmac secret (u.pathname ++ "?" ++
            serializeQuery (setParam u.params "exp" (natToDecimal (now + lifetime))))))) := by
  simp only [generateSignedUrl, hp]

theorem verifySignedUrl_eq_verdict (hmac : String → String → String) (secret : String)
    (now : Nat) (i : String) (u : Url) (hp : parseUrl i = some u) :
    verifySignedUrl hmac secret now i = some (verdict hmac secret now u) := by
  simp only [verifySignedUrl, hp, verdict, expValue, expectedSig]
  rcases hge : getParam u.params "exp" with _ | es <;> simp only [hge]
  rcases hpi : parseInt10 es with _ | e <;> simp only [hpi]
  rcases hsg : getParam u.params "sig" with _ | sg <;> simp only [hsg]
  by_cases h1 : (e == 0 || sg == "") = true
  · simp [h1]
  · by_cases h2 : (now : Int) > e
    · simp [h1, h2]
    · simp [h1, h2]

theorem verdict_true_inv (hmac : String → String → String) (secret : String) (now : Nat)
    (u : Url) (ht : verdict hmac secret now u = true) :
    ∃ sg, getParam u.params "sig" = some sg ∧ sg = expectedSig hmac secret u := by
  unfold verdict at ht
  rcases hev : expValue u with _ | e <;> simp only [hev] at ht
  · exact absurd ht (by decide)
  · rcases hsg : getParam u.params "sig" with _ | sg <;> simp only [hsg] at ht
    · exact absurd ht (by decide)
    · refine ⟨sg, rfl, ?_⟩
      by_cases h1 : (e == 0 || sg == "") = true
      · rw [if_pos h1] at ht
        exact absurd ht (by decide)
      · rw [if_neg h1] at ht
        by_cases h2 : (now : Int) > e
        · rw [if_pos h2] at ht
          exact absurd ht (by decide)
        · rw [if_neg h2] at ht
          exact (timingSafeEqual_eq_true_iff sg _).mp ht

theorem verdict_false_of_sig_mismatch (hmac : String → String → String) (secret : String)
    (now : Nat) (u : Url) (sg : String) (hsg : getParam u.params "sig" = some sg)
    (hne : sg ≠ expectedSig hmac secret u) : verdict hmac secret now u = false := by
  cases hv : verdict hmac secret now u with
  | false => rfl
  | true =>
    obtain ⟨sg', hsg', heq⟩ := verdict_true_inv hmac secret now u hv
    rw [hsg] at hsg'
    exact absurd (Option.some.inj hsg' ▸ heq) hne

theorem verdict_expiry (hmac : String → String → String) (secret : String) (now : Nat)
    (u : Url) (es : String) (e : Int) (sg : String)
    (hge : getParam u.params "exp" = some es) (hpi : parseInt10 es = some e) (he0 : e ≠ 0)
    (hsg : getParam u.params "sig" = some sg) (hsgne : sg ≠ "")
    (hmatch : sg = expectedSig hmac secret u) :
    verdict hmac secret now u = decide ((now : Int) ≤ e) := by
  have hev : expValue u = some e := by
    simp [expValue, hge, hpi]
  simp only [verdict, hev, hsg]
  have hcond : (e == 0 || sg == "") = false := by
    simp [he0, hsgne]
  rw [hcond]
  simp only [Bool.false_eq_true, if_false]
  by_cases h2 : (now : Int) > e
  · rw [if_pos h2]
    have hn : ¬ ((now : Int) ≤ e) := by omega
    simp [hn]
  · rw [if_neg h2]
    have hle : (now : Int) ≤ e := by omega
    rw [hmatch, timingSafeEqual_self]
    simp [hle]

/-! ## Round trip: verifier accepts freshly signed URLs -/

theorem safeParamsB_append (l1 l2 : List (String × String)) (h1 : safeParamsB l1 = true)
    (h2 : safeParamsB l2 = true) : safeParamsB (l1 ++ l2) = true := by
  simp only [safeParamsB, List.all_append, Bool.and_eq_true]
  exact ⟨h1, h2⟩

theorem safeParamsB_deleteParam (ps : List (String × String)) (k : String)
    (h : safeParamsB ps = true) : safeParamsB (deleteParam ps k) = true := by
  induction ps with
  | nil => rfl
  | cons p rest ih =>
    obtain ⟨k0, v0⟩ := p
    simp only [safeParamsB, List.all_cons, Bool.and_eq_true] at h
    by_cases hk : k0 = k
    · simp only [deleteParam, if_pos hk]
      exact ih h.2
    · simp only [deleteParam, if_neg hk, safeParamsB, List.all_cons, Bool.and_eq_true]
      exact ⟨h.1, ih h.2⟩

theorem safeParamsB_setParam (ps : List (String × String)) (k v : String)
    (h : safeParamsB ps = true) (hk : safeStrB k = true) (hv : safeStrB v = true) :
    safeParamsB (setParam ps k v) = true := by
  induction ps with
  | nil =>
    simp only [setParam, safeParamsB, List.all_cons, List.all_nil, Bool.and_eq_true]
    exact ⟨⟨hk, hv⟩, trivial⟩
  | cons p rest ih =>
    obtain ⟨k0, v0⟩ := p
    simp only [safeParamsB, List.all_cons, Bool.and_eq_true] at h
    by_cases hk0 : k0 = k
    · simp only [setParam, if_pos hk0, safeParamsB, List.all_cons, Bool.and_eq_true]
      refine ⟨⟨hk, hv⟩, ?_⟩
      exact safeParamsB_deleteParam rest k h.2
    · simp only [setParam, if_neg hk0, safeParamsB, List.all_cons, Bool.and_eq_true]
      exact ⟨h.1, ih h.2⟩

/-- Master lemma: signing an absolute URL with safe path and parameters and no
pre-existing `sig` parameter produces a server-relative URL that, re-anchored
under any well-formed scheme and host, verifies at time `now` exactly when
`now ≤ t0 + L`. -/
theorem roundtrip_master (hmac : String → String → String) (secret : String)
    (t0 L now : Nat) (S H P S2 H2 : String) (ps0 : List (String × String)) (inp : String)
    (hp : parseUrl inp = some ⟨S, H, P, ps0⟩)
    (hS2 : wfSchemeB S2 = true) (hH2 : wfHostB H2 = true) (hP : safePathB P = true)
    (hps : safeParamsB ps0 = true) (hnosig : getParam ps0 "sig" = none) (hL : 0 < L)
    (hss : safeStrB (hmac secret
      (P ++ "?" ++ serializeQuery (setParam ps0 "exp" (natToDecimal (t0 + L))))) = true)
    (hsn : hmac secret
      (P ++ "?" ++ serializeQuery (setParam ps0 "exp" (natToDecimal (t0 + L)))) ≠ "") :
    ∃ out, generateSignedUrl hmac secret t0 inp L = some out ∧
      verifySignedUrl hmac secret now (S2 ++ "://" ++ H2 ++ out) =
        some (decide (now ≤ t0 + L)) := by
  set eS := natToDecimal (t0 + L) with heS
  set ps1 := setParam ps0 "exp" eS with hps1
  set sg := hmac secret (P ++ "?" ++ serializeQuery ps1) with hsg
  have hps1_safe : safeParamsB ps1 = true :=
    safeParamsB_setParam ps0 "exp" eS hps (by decide) (natToDecimal_safe _)
  have hps1_nosig : getParam ps1 "sig" = none := by
    rw [hps1, getParam_setParam_ne ps0 "exp" eS "sig" (by decide)]
    exact hnosig
  have hset : setParam ps1 "sig" sg = ps1 ++ [("sig", sg)] :=
    setParam_of_getParam_none ps1 "sig" sg hps1_nosig
  have hgen : generateSignedUrl hmac secret t0 inp L =
      some (P ++ "?" ++ serializeQuery (ps1 ++ [("sig", sg)])) := by
    rw [generateSignedUrl_parse hmac secret t0 inp L _ hp]
    simp only [← heS, ← hps1, ← hsg, hset]
  refine ⟨P ++ "?" ++ serializeQuery (ps1 ++ [("sig", sg)]), hgen, ?_⟩
  have hps2_safe : safeParamsB (ps1 ++ [("sig", sg)]) = true :=
    safeParamsB_append _ _ hps1_safe (by
      simp only [safeParamsB, List.all_cons, List.all_nil, Bool.and_eq_true]
      exact ⟨⟨by decide, hss⟩, trivial⟩)
  have hparse2 : parseUrl (S2 ++ "://" ++ H2 ++ (P ++ "?" ++ serializeQuery (ps1 ++ [("sig", sg)]))) =
      some ⟨S2, H2, P, ps1 ++ [("sig", sg)]⟩ :=
    parseUrl_rendered S2 H2 P _ hS2 hH2 hP hps2_safe
  rw [verifySignedUrl_eq_verdict hmac secret now _ _ hparse2]
  have hge : getParam (ps1 ++ [("sig", sg)]) "exp" = some eS :=
    getParam_append_left ps1 _ "exp" eS (by rw [hps1]; exact getParam_setParam_same ps0 "exp" eS)
  have hpi : parseInt10 eS = some ((t0 + L : Nat) : Int) := parseInt10_natToDecimal (t0 + L)
  have he0 : ((t0 + L : Nat) : Int) ≠ 0 := by
    intro h
    have : t0 + L = 0 := by exact_mod_cast h
    omega
  have hgsig : getParam (ps1 ++ [("sig", sg)]) "sig" = some sg := by
    rw [getParam_append_right ps1 _ "sig" hps1_nosig]
    simp [getParam]
  have hdel : deleteParam (ps1 ++ [("sig", sg)]) "sig" = ps1 := by
    rw [deleteParam_append, deleteParam_of_getParam_none ps1 "sig" hps1_nosig]
    simp [deleteParam]
  have hmatch : sg = expectedSig hmac secret ⟨S2, H2, P, ps1 ++ [("sig", sg)]⟩ := by
    simp only [expectedSig, hdel]
  rw [verdict_expiry hmac secret now _ eS _ sg hge hpi he0 hgsig hsn hmatch]
  have hd : decide ((now : Int) ≤ ((t0 + L : Nat) : Int)) = decide (now ≤ t0 + L) := by
    rw [decide_eq_decide]
    exact ⟨fun h => by exact_mod_cast h, fun h => by exact_mod_cast h⟩
  rw [hd]

theorem char_toNat_inj (a b : Char) (h : a.toNat = b.toNat) : a = b := by
  have hc := congrArg Char.ofNat h
  rwa [Char.ofNat_toNat, Char.ofNat_toNat] at hc

theorem safeEnc_safe (s : String) : safeStrB (safeEnc s) = true := by
  simp only [safeStrB, safeEnc, str_data_mk, List.all_eq_true]
  intro c hc
  rcases List.mem_flatMap.mp hc with ⟨x, _, hcx⟩
  rcases List.mem_cons.mp hcx with rfl | hdig
  · decide
  · exact (digitList_facts c (natToDecimal_mem _ c hdig)).2.2.1

theorem natToDecimal_ne_dot (n : Nat) : ∀ c ∈ (natToDecimal n).data, c ≠ '.' :=
  fun c hc => (digitList_facts c (natToDecimal_mem n c hc)).2.2.2.2.2

theorem safeEnc_blocks_inj (l1 l2 : List Char)
    (h : l1.flatMap (fun c => '.' :: (natToDecimal c.toNat).data) =
         l2.flatMap (fun c => '.' :: (natToDecimal c.toNat).data)) : l1 = l2 := by
  induction l1 generalizing l2 with
  | nil =>
    cases l2 with
    | nil => rfl
    | cons c2 t2 => simp at h
  | cons c1 t1 ih =>
    cases l2 with
    | nil => simp at h
    | cons c2 t2 =>
      simp only [List.flatMap_cons, List.cons_append, List.cons.injEq, true_and] at h
      have hbreak : breakAt (fun c => c = '.')
            ((natToDecimal c1.toNat).data ++ t1.flatMap (fun c => '.' :: (natToDecimal c.toNat).data)) =
          ((natToDecimal c1.toNat).data, t1.flatMap (fun c => '.' :: (natToDecimal c.toNat).data)) := by
        cases t1 with
        | nil =>
          simp only [List.flatMap_nil, List.append_nil]
          exact breakAt_all_neg _ _ (fun c hc => by
            simp only [decide_eq_false_iff_not]
            exact natToDecimal_ne_dot _ c hc)
        | cons x xs =>
          simp only [List.flatMap_cons, List.cons_append]
          exact breakAt_append_sep _ _ _ _
            (fun c hc => by
              simp only [decide_eq_false_iff_not]
              exact natToDecimal_ne_dot _ c hc)
            (by simp)
      have hbreak2 : breakAt (fun c => c = '.')
            ((natToDecimal c2.toNat).data ++ t2.flatMap (fun c => '.' :: (natToDecimal c.toNat).data)) =
          ((natToDecimal c2.toNat).data, t2.flatMap (fun c => '.' :: (natToDecimal c.toNat).data)) := by
        cases t2 with
        | nil =>
          simp only [List.flatMap_nil, List.append_nil]
          exact breakAt_all_neg _ _ (fun c hc => by
            simp only [decide_eq_false_iff_not]
            exact natToDecimal_ne_dot _ c hc)
        | cons x xs =>
          simp only [List.flatMap_cons, List.cons_append]
          exact breakAt_append_sep _ _ _ _
            (fun c hc => by
              simp only [decide_eq_false_iff_not]
              exact natToDecimal_ne_dot _ c hc)
            (by simp)
      rw [h, hbreak2] at hbreak
      have hd : (natToDecimal c2.toNat).data = (natToDecimal c1.toNat).data :=
        congrArg Prod.fst hbreak
      have hcc : c1 = c2 :=
        char_toNat_inj c1 c2
          (natToDecimal_inj _ _ (str_ext _ _ hd)).symm
      have ht : t1.flatMap (fun c => '.' :: (natToDecimal c.toNat).data) =
          t2.flatMap (fun c => '.' :: (natToDecimal c.toNat).data) :=
        (congrArg Prod.snd hbreak).symm
      rw [hcc, ih t2 ht]

theorem safeEnc_inj (a b : String) (h : safeEnc a = safeEnc b) : a = b := by
  apply str_ext
  exact safeEnc_blocks_inj a.data b.data (congrArg String.data h)

theorem hmacModel_safe (secret msg : String) : safeStrB (hmacModel secret msg) = true := by
  simp only [safeStrB, hmacModel, str_data_append, List.all_append, Bool.and_eq_true,
    List.all_eq_true]
  refine ⟨⟨?_, ?_⟩, ?_⟩
  · intro c hc
    exact (List.all_eq_true.mp (safeEnc_safe secret)) c hc
  · intro c hc
    rcases List.mem_singleton.mp (by simpa using hc) with rfl
    decide
  · intro c hc
    exact (List.all_eq_true.mp (safeEnc_safe msg)) c hc

theorem hmacModel_ne_empty (secret msg : String) : hmacModel secret msg ≠ "" := by
  intro h
  have hd := congrArg String.data h
  simp only [hmacModel, str_data_append] at hd
  have hlen := congrArg List.length hd
  simp at hlen

theorem hmacModel_inj (secret a b : String) (h : hmacModel secret a = hmacModel secret b) :
    a = b := by
  have hd := congrArg String.data h
  simp only [hmacModel, str_data_append] at hd
  exact safeEnc_inj a b (str_ext _ _ (List.append_cancel_left hd))

/-! ## Injectivity facts about the canonical signing string -/

/-- Two canonical strings built from `?`-free paths agree iff their path and
query components agree. -/
theorem canon_split (P P' Q Q' : String) (hP : safePathB P = true) (hP' : safePathB P' = true)
    (h : P ++ "?" ++ Q = P' ++ "?" ++ Q') : P = P' ∧ Q = Q' := by
  have hd := congrArg String.data h
  simp only [str_data_append] at hd
  rw [List.append_assoc, List.append_assoc] at hd
  simp only [List.singleton_append] at hd
  have hPfree : ∀ c ∈ P.data, decide (c = '?') = false := fun c hc => by
    simp only [decide_eq_false_iff_not]
    exact (pathChar_ne c ((safePathB_shape P hP).2 c hc)).1
  have hPfree' : ∀ c ∈ P'.data, decide (c = '?') = false := fun c hc => by
    simp only [decide_eq_false_iff_not]
    exact (pathChar_ne c ((safePathB_shape P' hP').2 c hc)).1
  have hb1 : breakAt (fun c => c = '?') (P.data ++ ('?' :: Q.data)) = (P.data, '?' :: Q.data) :=
    breakAt_append_sep _ _ _ _ hPfree (by simp)
  have hb2 : breakAt (fun c => c = '?') (P'.data ++ ('?' :: Q'.data)) = (P'.data, '?' :: Q'.data) :=
    breakAt_append_sep _ _ _ _ hPfree' (by simp)
  rw [hd, hb2] at hb1
  refine ⟨str_ext _ _ (congrArg Prod.fst hb1).symm, str_ext _ _ ?_⟩
  have := congrArg Prod.snd hb1
  simpa using this.symm

theorem safeParamsB_decomp (a b : List (String × String)) (kv : String × String)
    (h : safeParamsB (a ++ kv :: b) = true) :
    safeParamsB a = true ∧ safeStrB kv.1 = true ∧ safeStrB kv.2 = true ∧
      safeParamsB b = true := by
  simp only [safeParamsB, List.all_append, List.all_cons, Bool.and_eq_true] at h
  exact ⟨h.1, h.2.1.1, h.2.1.2, h.2.2⟩

theorem safeParamsB_recomp (a b : List (String × String)) (kv : String × String)
    (ha : safeParamsB a = true) (hk : safeStrB kv.1 = true) (hv : safeStrB kv.2 = true)
    (hb : safeParamsB b = true) : safeParamsB (a ++ kv :: b) = true := by
  simp only [safeParamsB, List.all_append, List.all_cons, Bool.and_eq_true]
  exact ⟨ha, ⟨hk, hv⟩, hb⟩

/-- The serialized query determines the value at any fixed position (safe
parameter lists). -/
theorem serializeQuery_value_inj (a : List (String × String)) :
    ∀ (b : List (String × String)) (k v v' : String),
      safeParamsB (a ++ (k, v) :: b) = true → safeParamsB (a ++ (k, v') :: b) = true →
      serializeQuery (a ++ (k, v) :: b) = serializeQuery (a ++ (k, v') :: b) → v = v' := by
  induction a with
  | nil =>
    intro b k v v' h1 h2 h
    obtain ⟨-, hk, hv, hb⟩ := safeParamsB_decomp [] b (k, v) h1
    obtain ⟨-, -, hv', -⟩ := safeParamsB_decomp [] b (k, v') h2
    have hd := congrArg String.data h
    simp only [serializeQuery, str_data_mk, List.nil_append, List.map_cons] at hd
    rw [serializePairL_safe k v hk hv, serializePairL_safe k v' hk hv'] at hd
    cases b with
    | nil =>
      simp only [List.map_nil, joinAmp] at hd
      have h3 := List.append_cancel_left hd
      injection h3 with h4 h5
      exact str_ext _ _ h5
    | cons p bs =>
      rw [joinAmp_cons_ne _ _ (by simp), joinAmp_cons_ne _ _ (by simp)] at hd
      rw [List.append_assoc, List.append_assoc] at hd
      have hd2 := List.append_cancel_left hd
      simp only [List.cons_append] at hd2
      injection hd2 with hh hd3
      have hvfree : ∀ c ∈ v.data, decide (c = '&') = false := fun c hc => by
        simp only [decide_eq_false_iff_not]
        exact (safeChar_ne c ((List.all_eq_true.mp hv) c hc)).1
      have hvfree' : ∀ c ∈ v'.data, decide (c = '&') = false := fun c hc => by
        simp only [decide_eq_false_iff_not]
        exact (safeChar_ne c ((List.all_eq_true.mp hv') c hc)).1
      have hbr1 : breakAt (fun c => c = '&')
          (v.data ++ '&' :: joinAmp (List.map serializePairL (p :: bs))) =
          (v.data, '&' :: joinAmp (List.map serializePairL (p :: bs))) :=
        breakAt_append_sep _ _ _ _ hvfree (by simp)
      have hbr2 : breakAt (fun c => c = '&')
          (v'.data ++ '&' :: joinAmp (List.map serializePairL (p :: bs))) =
          (v'.data, '&' :: joinAmp (List.map serializePairL (p :: bs))) :=
        breakAt_append_sep _ _ _ _ hvfree' (by simp)
      rw [hd3, hbr2] at hbr1
      exact str_ext _ _ (congrArg Prod.fst hbr1).symm
  | cons p as ih =>
    intro b k v v' h1 h2 h
    have h1' : safeParamsB (as ++ (k, v) :: b) = true := by
      simp only [List.cons_append, safeParamsB, List.all_cons, Bool.and_eq_true] at h1
      exact h1.2
    have h2' : safeParamsB (as ++ (k, v') :: b) = true := by
      simp only [List.cons_append, safeParamsB, List.all_cons, Bool.and_eq_true] at h2
      exact h2.2
    have hd := congrArg String.data h
    simp only [serializeQuery, str_data_mk, List.cons_append, List.map_cons] at hd
    rw [joinAmp_cons_ne _ _ (by simp), joinAmp_cons_ne _ _ (by simp)] at hd
    have hd2 := List.append_cancel_left hd
    injection hd2 with hh hd3
    exact ih b k v v' h1' h2' (str_ext _ _ (by simp only [serializeQuery, str_data_mk]; exact hd3))

/-! ## Claim theorems -/

/-- C1.  Round-trip: for every server-relative resource path `P` (in the
modelled safe-ASCII path alphabet) and every lifetime `L > 0`, verifying — with
the same secret key and at the same clock second `t0` — the signed URL produced
by `generateSignedUrl` for `P` (anchored under the server's domain, as the
fulfillment handler does) with lifetime `L` returns `true`.  The two digest
hypotheses delimit the model: the hex digest is form-safe and nonempty, as a
real HMAC-SHA256 hex digest always is. -/
theorem spec_c1_round_trip (hmac : String → String → String) (secret : String)
    (t0 L : Nat) (P : String) (hL : 0 < L) (hP : safePathB P = true)
    (hss : safeStrB (hmac secret
      (P ++ "?" ++ serializeQuery [("exp", natToDecimal (t0 + L))])) = true)
    (hsn : hmac secret (P ++ "?" ++ serializeQuery [("exp", natToDecimal (t0 + L))]) ≠ "") :
    ∃ out, generateSignedUrl hmac secret t0 (YOUR_DOMAIN ++ P) L = some out ∧
      verifySignedUrl hmac secret t0 (YOUR_DOMAIN ++ out) = some true := by
  have hdom : YOUR_DOMAIN = "https" ++ "://" ++ "imagestock-shop.onrender.com" := rfl
  have hp : parseUrl (YOUR_DOMAIN ++ P) =
      some ⟨"https", "imagestock-shop.onrender.com", P, []⟩ := by
    rw [hdom]
    exact parseUrl_rendered_noq "https" "imagestock-shop.onrender.com" P
      (by decide) (by decide) hP
  obtain ⟨out, hgen, hver⟩ :=
    roundtrip_master hmac secret t0 L t0 "https" "imagestock-shop.onrender.com" P
      "https" "imagestock-shop.onrender.com" [] (YOUR_DOMAIN ++ P) hp
      (by decide) (by decide) hP (by decide) rfl hL hss hsn
  rw [← hdom] at hver
  refine ⟨out, hgen, ?_⟩
  rw [hver]
  simp

/-- Witness for C1 at the spec's concrete scenario: path `/api/download/42`,
lifetime 900, signing time 5, the model digest. -/
theorem spec_c1_round_trip_witness :
    ∃ out, generateSignedUrl hmacModel "k" 5 (YOUR_DOMAIN ++ "/api/download/42") 900 = some out ∧
      verifySignedUrl hmacModel "k" 5 (YOUR_DOMAIN ++ out) = some true :=
  spec_c1_round_trip hmacModel "k" 5 900 "/api/download/42" (by decide) (by decide)
    (hmacModel_safe _ _) (hmacModel_ne_empty _ _)

/-- C4.  Strict expiry: a token generated at `t0` with lifetime `L` carries
`exp = t0 + L`; verification at time `now` passes the expiry test exactly when
`now ≤ t0 + L` — the boundary second `now = t0 + L` still verifies, and any
strictly later check yields `false` (the code rejects only when `now > exp`). -/
theorem spec_c4_strict_expiry (hmac : String → String → String) (secret : String)
    (t0 L now : Nat) (P : String) (hL : 0 < L) (hP : safePathB P = true)
    (hss : safeStrB (hmac secret
      (P ++ "?" ++ serializeQuery [("exp", natToDecimal (t0 + L))])) = true)
    (hsn : hmac secret (P ++ "?" ++ serializeQuery [("exp", natToDecimal (t0 + L))]) ≠ "") :
    ∃ out, generateSignedUrl hmac secret t0 (YOUR_DOMAIN ++ P) L = some out ∧
      verifySignedUrl hmac secret now (YOUR_DOMAIN ++ out) = some (decide (now ≤ t0 + L)) := by
  have hdom : YOUR_DOMAIN = "https" ++ "://" ++ "imagestock-shop.onrender.com" := rfl
  have hp : parseUrl (YOUR_DOMAIN ++ P) =
      some ⟨"https", "imagestock-shop.onrender.com", P, []⟩ := by
    rw [hdom]
    exact parseUrl_rendered_noq "https" "imagestock-shop.onrender.com" P
      (by decide) (by decide) hP
  obtain ⟨out, hgen, hver⟩ :=
    roundtrip_master hmac secret t0 L now "https" "imagestock-shop.onrender.com" P
      "https" "imagestock-shop.onrender.com" [] (YOUR_DOMAIN ++ P) hp
      (by decide) (by decide) hP (by decide) rfl hL hss hsn
  rw [← hdom] at hver
  exact ⟨out, hgen, hver⟩

/-- Witness for C4: token signed at 5 with lifetime 900 (`exp = 905`) still
verifies at the boundary second 905 and fails at 906. -/
theorem spec_c4_strict_expiry_witness :
    (∃ out, generateSignedUrl hmacModel "k" 5 (YOUR_DOMAIN ++ "/api/download/42") 900 = some out ∧
      verifySignedUrl hmacModel "k" 905 (YOUR_DOMAIN ++ out) = some (decide (905 ≤ 5 + 900))) ∧
    (∃ out, generateSignedUrl hmacModel "k" 5 (YOUR_DOMAIN ++ "/api/download/42") 900 = some out ∧
      verifySignedUrl hmacModel "k" 906 (YOUR_DOMAIN ++ out) = some (decide (906 ≤ 5 + 900))) :=
  ⟨spec_c4_strict_expiry hmacModel "k" 5 900 905 "/api/download/42" (by decide) (by decide)
      (hmacModel_safe _ _) (hmacModel_ne_empty _ _),
    spec_c4_strict_expiry hmacModel "k" 5 900 906 "/api/download/42" (by decide) (by decide)
      (hmacModel_safe _ _) (hmacModel_ne_empty _ _)⟩

/-- C7.  Canonical signing algorithm: (1) the signer embeds, as the `sig`
parameter, the digest of the canonical string `path + "?" +` the ordered
serialization of all query parameters including the freshly set `exp` and
excluding `sig`; (2) deleting `sig` from the final parameter set recovers
exactly the parameter set that was signed, so the verifier's canonical string
is computed by the same serialization routine over the same parameters; and
(3) any URL the verifier accepts carries as its `sig` parameter precisely the
digest of `pathname + "?" +` the serialization of its parameters without
`sig`. -/
theorem spec_c7_canonical_signing (hmac : String → String → String) (secret : String)
    (t0 L : Nat) (S H P : String) (ps0 : List (String × String))
    (hS : wfSchemeB S = true) (hH : wfHostB H = true) (hP : safePathB P = true)
    (hps : safeParamsB ps0 = true) (hnosig : getParam ps0 "sig" = none) :
    (generateSignedUrl hmac secret t0 (S ++ "://" ++ H ++ (P ++ "?" ++ serializeQuery ps0)) L =
      some (P ++ "?" ++ serializeQuery (setParam ps0 "exp" (natToDecimal (t0 + L)) ++
        [("sig", hmac secret
          (P ++ "?" ++ serializeQuery (setParam ps0 "exp" (natToDecimal (t0 + L)))))]))) ∧
    (deleteParam (setParam ps0 "exp" (natToDecimal (t0 + L)) ++
        [("sig", hmac secret
          (P ++ "?" ++ serializeQuery (setParam ps0 "exp" (natToDecimal (t0 + L)))))]) "sig" =
      setParam ps0 "exp" (natToDecimal (t0 + L))) ∧
    (∀ now i u, parseUrl i = some u → verifySignedUrl hmac secret now i = some true →
      getParam u.params "sig" =
        some (hmac secret (u.pathname ++ "?" ++ serializeQuery (deleteParam u.params "sig")))) := by
  have hnosig1 : getParam (setParam ps0 "exp" (natToDecimal (t0 + L))) "sig" = none := by
    rw [getParam_setParam_ne ps0 "exp" _ "sig" (by decide)]
    exact hnosig
  refine ⟨?_, ?_, ?_⟩
  · have hp := parseUrl_rendered S H P ps0 hS hH hP hps
    rw [generateSignedUrl_parse hmac secret t0 _ L _ hp]
    rw [setParam_of_getParam_none _ "sig" _ hnosig1]
  · rw [deleteParam_append, deleteParam_of_getParam_none _ "sig" hnosig1]
    simp [deleteParam]
  · intro now i u hp' hver
    rw [verifySignedUrl_eq_verdict hmac secret now i u hp'] at hver
    obtain ⟨sg, hs, he⟩ := verdict_true_inv hmac secret now u (Option.some.inj hver)
    rw [hs, he]
    rfl

/-- Witness for C7: the first two conjuncts at a concrete signing, and the
third conjunct at the concrete verified witness token. -/
theorem spec_c7_canonical_signing_witness :
    (generateSignedUrl hmacModel "k" 5 ("https" ++ "://" ++ "h" ++ ("/d" ++ "?" ++ serializeQuery [("tx", "t")])) 900 =
      some ("/d" ++ "?" ++ serializeQuery (setParam [("tx", "t")] "exp" (natToDecimal 905) ++
        [("sig", hmacModel "k"
          ("/d" ++ "?" ++ serializeQuery (setParam [("tx", "t")] "exp" (natToDecimal 905))))]))) ∧
    getParam tokParsed.params "sig" =
      some (hmacModel "k" (tokParsed.pathname ++ "?" ++
        serializeQuery (deleteParam tokParsed.params "sig"))) :=
  ⟨(spec_c7_canonical_signing hmacModel "k" 5 900 "https" "h" "/d" [("tx", "t")]
      (by decide) (by decide) (by decide) (by decide) (by decide)).1,
    (spec_c7_canonical_signing hmacModel "k" 5 900 "https" "h" "/d" [("tx", "t")]
      (by decide) (by decide) (by decide) (by decide) (by decide)).2.2
      5 (YOUR_DOMAIN ++ tokUrl) tokParsed (by decide) (by decide)⟩

/-- C3.  Tamper sensitivity: for a URL of the exact shape `generateSignedUrl`
produces — safe path `P`, safe parameters `ps1` (including `exp`, excluding
`sig`), and `sig = hmac(secret, P + "?" + serializeQuery ps1)` — changing the
path, the value of any non-`sig` query parameter, or the `sig` value itself to
any other safe value makes `verifySignedUrl` return `false`, provided the
digest is collision-free for this key (a hypothesis that cannot be discharged
for real HMAC-SHA256 but is satisfied by the witness digest). -/
theorem spec_c3_tamper_sensitivity (hmac : String → String → String) (secret : String)
    (now : Nat) (S H P : String) (ps1 : List (String × String)) (sg : String)
    (hS : wfSchemeB S = true) (hH : wfHostB H = true) (hP : safePathB P = true)
    (hps1 : safeParamsB ps1 = true) (hnosig : getParam ps1 "sig" = none)
    (hsg : sg = hmac secret (P ++ "?" ++ serializeQuery ps1))
    (hss : safeStrB sg = true)
    (hinj : ∀ x y, hmac secret x = hmac secret y → x = y) :
    (∀ P', safePathB P' = true → P' ≠ P →
      verifySignedUrl hmac secret now
        (S ++ "://" ++ H ++ (P' ++ "?" ++ serializeQuery (ps1 ++ [("sig", sg)]))) =
        some false) ∧
    (∀ a b k v v', ps1 = a ++ (k, v) :: b → k ≠ "sig" → safeStrB v' = true → v' ≠ v →
      verifySignedUrl hmac secret now
        (S ++ "://" ++ H ++ (P ++ "?" ++ serializeQuery ((a ++ (k, v') :: b) ++ [("sig", sg)]))) =
        some false) ∧
    (∀ s', safeStrB s' = true → s' ≠ sg →
      verifySignedUrl hmac secret now
        (S ++ "://" ++ H ++ (P ++ "?" ++ serializeQuery (ps1 ++ [("sig", s')]))) =
        some false) := by
  have hps2 : safeParamsB (ps1 ++ [("sig", sg)]) = true :=
    safeParamsB_append _ _ hps1 (by
      simp only [safeParamsB, List.all_cons, List.all_nil, Bool.and_eq_true]
      exact ⟨⟨by decide, hss⟩, trivial⟩)
  have hget2 : getParam (ps1 ++ [("sig", sg)]) "sig" = some sg := by
    rw [getParam_append_right _ _ _ hnosig]
    simp [getParam]
  have hdel2 : deleteParam (ps1 ++ [("sig", sg)]) "sig" = ps1 := by
    rw [deleteParam_append, deleteParam_of_getParam_none _ _ hnosig]
    simp [deleteParam]
  refine ⟨?_, ?_, ?_⟩
  · intro P' hP' hne
    have hp := parseUrl_rendered S H P' _ hS hH hP' hps2
    rw [verifySignedUrl_eq_verdict _ _ _ _ _ hp]
    have hmis : sg ≠ expectedSig hmac secret ⟨S, H, P', ps1 ++ [("sig", sg)]⟩ := by
      intro heq
      simp only [expectedSig, hdel2] at heq
      rw [hsg] at heq
      exact hne (canon_split P' P _ _ hP' hP (hinj _ _ heq).symm).1
    rw [verdict_false_of_sig_mismatch _ _ _ _ sg hget2 hmis]
  · intro a b k v v' hdec hk hsafe hne
    obtain ⟨hsa, hsk, hsv, hsb⟩ := safeParamsB_decomp a b (k, v) (hdec ▸ hps1)
    have hps1' : safeParamsB (a ++ (k, v') :: b) = true :=
      safeParamsB_recomp a b (k, v') hsa hsk hsafe hsb
    have hnosig' : getParam (a ++ (k, v') :: b) "sig" = none := by
      rw [getParam_eq_none_iff]
      intro p hp'
      have hmem := (getParam_eq_none_iff ps1 "sig").mp hnosig
      rcases List.mem_append.mp hp' with hpa | hpc
      · exact hmem p (hdec ▸ List.mem_append_left _ hpa)
      · rcases List.mem_cons.mp hpc with rfl | hpb
        · exact hk
        · exact hmem p (hdec ▸ List.mem_append_right _ (List.mem_cons_of_mem _ hpb))
    have hpst : safeParamsB ((a ++ (k, v') :: b) ++ [("sig", sg)]) = true :=
      safeParamsB_append _ _ hps1' (by
        simp only [safeParamsB, List.all_cons, List.all_nil, Bool.and_eq_true]
        exact ⟨⟨by decide, hss⟩, trivial⟩)
    have hgett : getParam ((a ++ (k, v') :: b) ++ [("sig", sg)]) "sig" = some sg := by
      rw [getParam_append_right _ _ _ hnosig']
      simp [getParam]
    have hdelt : deleteParam ((a ++ (k, v') :: b) ++ [("sig", sg)]) "sig" = a ++ (k, v') :: b := by
      rw [deleteParam_append, deleteParam_of_getParam_none _ _ hnosig']
      simp [deleteParam]
    have hp := parseUrl_rendered S H P _ hS hH hP hpst
    rw [verifySignedUrl_eq_verdict _ _ _ _ _ hp]
    have hmis : sg ≠ expectedSig hmac secret ⟨S, H, P, (a ++ (k, v') :: b) ++ [("sig", sg)]⟩ := by
      intro heq
      simp only [expectedSig, hdelt] at heq
      rw [hsg] at heq
      have hq := (canon_split P P _ _ hP hP (hinj _ _ heq)).2
      rw [hdec] at hq
      exact hne (serializeQuery_value_inj a b k v v' (hdec ▸ hps1) hps1' hq).symm
    rw [verdict_false_of_sig_mismatch _ _ _ _ sg hgett hmis]
  · intro s' hsafe hne
    have hpst : safeParamsB (ps1 ++ [("sig", s')]) = true :=
      safeParamsB_append _ _ hps1 (by
        simp only [safeParamsB, List.all_cons, List.all_nil, Bool.and_eq_true]
        exact ⟨⟨by decide, hsafe⟩, trivial⟩)
    have hgett : getParam (ps1 ++ [("sig", s')]) "sig" = some s' := by
      rw [getParam_append_right _ _ _ hnosig]
      simp [getParam]
    have hdelt : deleteParam (ps1 ++ [("sig", s')]) "sig" = ps1 := by
      rw [deleteParam_append, deleteParam_of_getParam_none _ _ hnosig]
      simp [deleteParam]
    have hp := parseUrl_rendered S H P _ hS hH hP hpst
    rw [verifySignedUrl_eq_verdict _ _ _ _ _ hp]
    have hmis : s' ≠ expectedSig hmac secret ⟨S, H, P, ps1 ++ [("sig", s')]⟩ := by
      intro heq
      simp only [expectedSig, hdelt] at heq
      rw [← hsg] at heq
      exact hne heq
    rw [verdict_false_of_sig_mismatch _ _ _ _ s' hgett hmis]

/-- Witness for C3: the witness token rejected after changing the path
(`42` → `43`), the `tx` value (`pi_123` → `pi_124`), and the signature
(replaced by `deadbeef`). -/
theorem spec_c3_tamper_sensitivity_witness :
    (verifySignedUrl hmacModel "k" 5
      ("https" ++ "://" ++ "imagestock-shop.onrender.com" ++ ("/api/download/43" ++ "?" ++
        serializeQuery ([("tx", "pi_123"), ("exp", "1000")] ++ [("sig", tokSig)]))) =
      some false) ∧
    (verifySignedUrl hmacModel "k" 5
      ("https" ++ "://" ++ "imagestock-shop.onrender.com" ++ ("/api/download/42" ++ "?" ++
        serializeQuery (([] ++ ("tx", "pi_124") :: [("exp", "1000")]) ++ [("sig", tokSig)]))) =
      some false) ∧
    (verifySignedUrl hmacModel "k" 5
      ("https" ++ "://" ++ "imagestock-shop.onrender.com" ++ ("/api/download/42" ++ "?" ++
        serializeQuery ([("tx", "pi_123"), ("exp", "1000")] ++ [("sig", "deadbeef")]))) =
      some false) :=
  ⟨(spec_c3_tamper_sensitivity hmacModel "k" 5 "https" "imagestock-shop.onrender.com"
      "/api/download/42" [("tx", "pi_123"), ("exp", "1000")] tokSig
      (by decide) (by decide) (by decide) (by decide) (by decide) (by decide)
      (hmacModel_safe _ _) (hmacModel_inj "k")).1
      "/api/download/43" (by decide) (by decide),
    (spec_c3_tamper_sensitivity hmacModel "k" 5 "https" "imagestock-shop.onrender.com"
      "/api/download/42" [("tx", "pi_123"), ("exp", "1000")] tokSig
      (by decide) (by decide) (by decide) (by decide) (by decide) (by decide)
      (hmacModel_safe _ _) (hmacModel_inj "k")).2.1
      [] [("exp", "1000")] "tx" "pi_123" "pi_124" rfl (by decide) (by decide) (by decide),
    (spec_c3_tamper_sensitivity hmacModel "k" 5 "https" "imagestock-shop.onrender.com"
      "/api/download/42" [("tx", "pi_123"), ("exp", "1000")] tokSig
      (by decide) (by decide) (by decide) (by decide) (by decide) (by decide)
      (hmacModel_safe _ _) (hmacModel_inj "k")).2.2
      "deadbeef" (by decide) (by decide)⟩

theorem restParse_head (rest : List Char)
    (h : rest = [] ∨ rest.head? = some '/' ∨ rest.head? = some '?') :
    ∃ t, (restParse rest).1.data = '/' :: t := by
  rcases h with rfl | hh | hh
  · exact ⟨[], rfl⟩
  · obtain ⟨r0, rs, rfl⟩ : ∃ r0 rs, rest = r0 :: rs := by
      cases rest with
      | nil => simp at hh
      | cons a b => exact ⟨a, b, rfl⟩
    have hr0 : r0 = '/' := by simpa using hh
    subst hr0
    simp only [restParse]
    rw [breakAt_cons_neg _ _ _ (by decide)]
    rw [breakAt_cons_neg _ _ _ (by decide)]
    simp only [List.isEmpty_cons, str_data_mk]
    rw [if_neg (by decide)]
    exact ⟨_, rfl⟩
  · obtain ⟨r0, rs, rfl⟩ : ∃ r0 rs, rest = r0 :: rs := by
      cases rest with
      | nil => simp at hh
      | cons a b => exact ⟨a, b, rfl⟩
    have hr0 : r0 = '?' := by simpa using hh
    subst hr0
    simp only [restParse]
    rw [breakAt_cons_neg _ _ _ (by decide)]
    rw [breakAt_cons_pos _ _ _ (by decide)]
    simp only [List.isEmpty_nil, str_data_mk]
    exact ⟨[], by simp⟩

/-- C8.  Host independence: the canonical string covers only pathname and
query, so (1) verification of the same path-plus-query presented under any two
absolute bases (scheme and host) agrees, (2) signing is likewise independent
of the base, and (3) the signer's output is always the server-relative path
plus query — it starts with `/`, the scheme and host having been stripped. -/
theorem spec_c8_host_independence (hmac : String → String → String) (secret : String)
    (now L : Nat) (S1 H1 S2 H2 pq : String)
    (h1 : wfSchemeB S1 = true) (h2 : wfHostB H1 = true)
    (h3 : wfSchemeB S2 = true) (h4 : wfHostB H2 = true)
    (hpq : pq.data = [] ∨ pq.data.head? = some '/' ∨ pq.data.head? = some '?') :
    verifySignedUrl hmac secret now (S1 ++ "://" ++ H1 ++ pq) =
      verifySignedUrl hmac secret now (S2 ++ "://" ++ H2 ++ pq) ∧
    generateSignedUrl hmac secret now (S1 ++ "://" ++ H1 ++ pq) L =
      generateSignedUrl hmac secret now (S2 ++ "://" ++ H2 ++ pq) L ∧
    (∀ out, generateSignedUrl hmac secret now (S1 ++ "://" ++ H1 ++ pq) L = some out →
      out.data.head? = some '/') := by
  have hcd : ("://" : String).data = [':', '/', '/'] := rfl
  have hs1 : (S1 ++ "://" ++ H1 ++ pq).data =
      S1.data ++ ':' :: '/' :: '/' :: (H1.data ++ pq.data) := by
    simp [str_data_append, hcd, List.append_assoc]
  have hs2 : (S2 ++ "://" ++ H2 ++ pq).data =
      S2.data ++ ':' :: '/' :: '/' :: (H2.data ++ pq.data) := by
    simp [str_data_append, hcd, List.append_assoc]
  have hp1 := parseUrl_split _ S1 H1 pq.data hs1 h1 h2 hpq
  have hp2 := parseUrl_split _ S2 H2 pq.data hs2 h3 h4 hpq
  refine ⟨?_, ?_, ?_⟩
  · rw [verifySignedUrl_eq_verdict hmac secret now _ _ hp1,
      verifySignedUrl_eq_verdict hmac secret now _ _ hp2]
    rfl
  · rw [generateSignedUrl_parse hmac secret now _ L _ hp1,
      generateSignedUrl_parse hmac secret now _ L _ hp2]
  · intro out hout
    rw [generateSignedUrl_parse hmac secret now _ L _ hp1] at hout
    obtain ⟨t, ht⟩ := restParse_head pq.data hpq
    have hout' := Option.some.inj hout
    rw [← hout']
    simp [str_data_append, ht]

/-- Witness for C8 at two distinct bases and a concrete signed path. -/
theorem spec_c8_host_independence_witness :
    (verifySignedUrl hmacModel "k" 5 ("https" ++ "://" ++ "a.example" ++ ("/x?tx=1&exp=9&sig=z" : String)) =
      verifySignedUrl hmacModel "k" 5 ("http" ++ "://" ++ "b.example" ++ ("/x?tx=1&exp=9&sig=z" : String))) ∧
    (generateSignedUrl hmacModel "k" 5 ("https" ++ "://" ++ "a.example" ++ ("/x?tx=1&exp=9&sig=z" : String)) 900 =
      generateSignedUrl hmacModel "k" 5 ("http" ++ "://" ++ "b.example" ++ ("/x?tx=1&exp=9&sig=z" : String)) 900) ∧
    (∀ out, generateSignedUrl hmacModel "k" 5
        ("https" ++ "://" ++ "a.example" ++ ("/x?tx=1&exp=9&sig=z" : String)) 900 = some out →
      out.data.head? = some '/') :=
  spec_c8_host_independence hmacModel "k" 5 900 "https" "a.example" "http" "b.example"
    "/x?tx=1&exp=9&sig=z" (by decide) (by decide) (by decide) (by decide)
    (Or.inr (Or.inl (by decide)))

/-- C2 counterexample.  The claim asserts that `verifySignedUrl` returns a
boolean for *every* input string.  On the string `"abc"`, which the WHATWG
`URL` constructor rejects, `new URL(fullPath)` throws *outside* the function's
`try/catch` (which guards only `timingSafeEqual`), so the exception escapes to
the caller: in the embedding the result is `none` (thrown), not a boolean. -/
theorem spec_c2_counterexample : verifySignedUrl hmacModel "k" 0 "abc" = none := rfl

/-- C2 amended.  For every input string that the URL parser accepts, the
verifier terminates without throwing and returns a boolean; in particular a
supplied signature that differs from the recomputed one — wrong byte length or
malformed content alike — resolves to `false` (the `timingSafeEqual` length
throw is caught inside the function).  Inputs rejected by the URL parser make
the verifier throw instead of returning a boolean. -/
theorem spec_c2_verifier_totality (hmac : String → String → String) (secret : String)
    (now : Nat) (i : String) (u : Url) (hp : parseUrl i = some u) :
    (∃ b : Bool, verifySignedUrl hmac secret now i = some b) ∧
    (∀ sg, getParam u.params "sig" = some sg → sg ≠ expectedSig hmac secret u →
      verifySignedUrl hmac secret now i = some false) := by
  refine ⟨⟨verdict hmac secret now u, verifySignedUrl_eq_verdict hmac secret now i u hp⟩, ?_⟩
  intro sg hsg hne
  rw [verifySignedUrl_eq_verdict hmac secret now i u hp,
    verdict_false_of_sig_mismatch hmac secret now u sg hsg hne]

/-- Witness for the amended C2: a parseable URL with a malformed, short
signature returns a boolean, namely `false`. -/
theorem spec_c2_verifier_totality_witness :
    (∃ b : Bool, verifySignedUrl hmacModel "k" 0 "https://h/x?exp=9&sig=bad" = some b) ∧
    verifySignedUrl hmacModel "k" 0 "https://h/x?exp=9&sig=bad" = some false := by
  have h := spec_c2_verifier_totality hmacModel "k" 0 "https://h/x?exp=9&sig=bad"
    ⟨"https", "h", "/x", [("exp", "9"), ("sig", "bad")]⟩ (by decide)
  exact ⟨h.1, h.2 "bad" (by decide) (by decide)⟩

/-- C9.  Zero-expiry rejection: whenever the `exp` parameter parses (with
`parseInt` semantics) to `0`, or fails to parse at all (`NaN`), the verifier
returns `false` — regardless of the signature and of the current time, because
`if (!exp || !sig)` tests the parsed expiry for truthiness, not presence. -/
theorem spec_c9_zero_expiry (hmac : String → String → String) (secret : String)
    (now : Nat) (i : String) (u : Url) (hp : parseUrl i = some u)
    (hexp : expValue u = none ∨ expValue u = some 0) :
    verifySignedUrl hmac secret now i = some false := by
  rw [verifySignedUrl_eq_verdict hmac secret now i u hp]
  rcases hexp with h | h
  · simp only [verdict, h]
  · simp only [verdict, h]
    rcases hsg : getParam u.params "sig" with _ | sg <;> simp only [hsg]
    simp

/-- Witness for C9: a token bearing `exp=0` whose signature over the canonical
string (including the literal `exp=0`) is valid is still rejected. -/
theorem spec_c9_zero_expiry_witness :
    verifySignedUrl hmacModel "k" 0 zeroUrl = some false :=
  spec_c9_zero_expiry hmacModel "k" 0 zeroUrl
    ⟨"https", "h", "/x", [("exp", "0"), ("sig", zeroSig)]⟩ (by decide) (Or.inr (by decide))

theorem takeWhile_append_stop (p : Char → Bool) (a b : List Char)
    (ha : ∀ c ∈ a, p c = true)
    (hb : b = [] ∨ ∃ d t, b = d :: t ∧ p d = false) :
    (a ++ b).takeWhile p = a := by
  induction a with
  | nil =>
    rcases hb with rfl | ⟨d, t, rfl, hd⟩
    · rfl
    · simp only [List.nil_append]
      rw [List.takeWhile_cons_of_neg (by simp [hd])]
  | cons c cs ih =>
    rw [List.cons_append, List.takeWhile_cons_of_pos (ha c (List.mem_cons_self c cs))]
    rw [ih (fun x hx => ha x (List.mem_cons_of_mem c hx))]

/-- JavaScript `parseInt(_, 10)` of a decimal number followed by any string
whose first character is not a digit reads exactly the numeric prefix. -/
theorem parseInt10_prefix (n : Nat) (g : String)
    (hg : ∀ c, g.data.head? = some c → c.isDigit = false) :
    parseInt10 (natToDecimal n ++ g) = some (n : Int) := by
  have hmem := natToDecimal_mem n
  have hne : (natToDecimal n).data ≠ [] := natToDecAux_ne_nil (n + 1) n (Nat.lt_succ_self n)
  obtain ⟨c, rest, hdec⟩ := List.exists_cons_of_ne_nil hne
  have hc := digitList_facts c (hmem c (hdec ▸ List.mem_cons_self c rest))
  have hdata : (natToDecimal n ++ g).data = c :: (rest ++ g.data) := by
    rw [str_data_append, hdec, List.cons_append]
  have hdw : (natToDecimal n ++ g).data.dropWhile (fun x => x.isWhitespace) =
      c :: (rest ++ g.data) := by
    rw [hdata, List.dropWhile_cons, if_neg (by simp [hc.2.1])]
  simp only [parseInt10, hdw]
  rw [if_neg hc.2.2.2.1, if_neg hc.2.2.2.2.1]
  simp only [leadingDigits]
  have htw : (c :: (rest ++ g.data)).takeWhile (fun x => x.isDigit) = c :: rest := by
    have hsplit : c :: (rest ++ g.data) = (c :: rest) ++ g.data := by simp
    rw [hsplit]
    apply takeWhile_append_stop
    · intro x hx
      exact (digitList_facts x (hmem x (hdec ▸ hx))).1
    · cases hgd : g.data with
      | nil => exact Or.inl rfl
      | cons d t => exact Or.inr ⟨d, t, rfl, hg d (by rw [hgd]; rfl)⟩
  rw [htw]
  rw [if_neg (by simp)]
  have hval : digitsVal (c :: rest) = n := by
    have hv := natToDecAux_val (n + 1) n (Nat.lt_succ_self n)
    have hd : natToDecAux (n + 1) n = (natToDecimal n).data := rfl
    rw [hd, hdec] at hv
    exact hv
  simp [hval]

/-- C10.  Numeric-prefix expiry parsing, in full generality: for every numeric
prefix `n > 0` and every trailing-garbage string whose first character is not
a digit (so the `exp` value is the literal `natToDecimal n ++ garbage`, e.g.
`"100abc"`), for every path, host, scheme, accompanying parameter set and
checking time, `parseInt` reads only the numeric prefix `n` from the literal
`exp` value, while the recomputed signature covers that literal string; a
token carrying such an `exp` together with a signature over the literal
canonical string therefore verifies exactly while `now ≤ n`.  (`0 < n` is
forced by the code: a zero prefix is rejected by the truthiness guard, cf.
C9.) -/
theorem spec_c10_numeric_prefix (hmac : String → String → String) (secret : String)
    (now n : Nat) (S H P garbage : String) (ps0 : List (String × String))
    (hS : wfSchemeB S = true) (hH : wfHostB H = true) (hP : safePathB P = true)
    (hps0 : safeParamsB ps0 = true) (hnosig : getParam ps0 "sig" = none)
    (hn : 0 < n) (hg : safeStrB garbage = true)
    (hgnd : ∀ c, garbage.data.head? = some c → c.isDigit = false)
    (hss : safeStrB (hmac secret (P ++ "?" ++
      serializeQuery (setParam ps0 "exp" (natToDecimal n ++ garbage)))) = true)
    (hsn : hmac secret (P ++ "?" ++
      serializeQuery (setParam ps0 "exp" (natToDecimal n ++ garbage))) ≠ "") :
    parseInt10 (natToDecimal n ++ garbage) = some (n : Int) ∧
    verifySignedUrl hmac secret now
      (S ++ "://" ++ H ++ (P ++ "?" ++ serializeQuery
        (setParam ps0 "exp" (natToDecimal n ++ garbage) ++
          [("sig", hmac secret (P ++ "?" ++
            serializeQuery (setParam ps0 "exp" (natToDecimal n ++ garbage))))]))) =
      some (decide (now ≤ n)) := by
  have hpi : parseInt10 (natToDecimal n ++ garbage) = some (n : Int) :=
    parseInt10_prefix n garbage hgnd
  refine ⟨hpi, ?_⟩
  set es := natToDecimal n ++ garbage with hes
  set ps1 := setParam ps0 "exp" es with hps1def
  set sg := hmac secret (P ++ "?" ++ serializeQuery ps1) with hsgdef
  have hes_safe : safeStrB es = true := by
    rw [hes]
    simp only [safeStrB, str_data_append, List.all_append, Bool.and_eq_true]
    exact ⟨natToDecimal_safe n, hg⟩
  have hps1_safe : safeParamsB ps1 = true :=
    safeParamsB_setParam ps0 "exp" es hps0 (by decide) hes_safe
  have hps1_nosig : getParam ps1 "sig" = none := by
    rw [hps1def, getParam_setParam_ne ps0 "exp" es "sig" (by decide)]
    exact hnosig
  have hps2_safe : safeParamsB (ps1 ++ [("sig", sg)]) = true :=
    safeParamsB_append _ _ hps1_safe (by
      simp only [safeParamsB, List.all_cons, List.all_nil, Bool.and_eq_true]
      exact ⟨⟨by decide, hss⟩, trivial⟩)
  have hp := parseUrl_rendered S H P (ps1 ++ [("sig", sg)]) hS hH hP hps2_safe
  rw [verifySignedUrl_eq_verdict hmac secret now _ _ hp]
  have hge : getParam (ps1 ++ [("sig", sg)]) "exp" = some es :=
    getParam_append_left ps1 _ "exp" es
      (by rw [hps1def]; exact getParam_setParam_same ps0 "exp" es)
  have he0 : (n : Int) ≠ 0 := by
    intro h
    have hz : n = 0 := by exact_mod_cast h
    omega
  have hgs : getParam (ps1 ++ [("sig", sg)]) "sig" = some sg := by
    rw [getParam_append_right _ _ _ hps1_nosig]
    simp [getParam]
  have hdel : deleteParam (ps1 ++ [("sig", sg)]) "sig" = ps1 := by
    rw [deleteParam_append, deleteParam_of_getParam_none _ _ hps1_nosig]
    simp [deleteParam]
  have hmatch : sg = expectedSig hmac secret ⟨S, H, P, ps1 ++ [("sig", sg)]⟩ := by
    simp only [expectedSig, hdel]
  rw [verdict_expiry hmac secret now _ es (n : Int) sg hge hpi he0 hgs hsn hmatch]
  congr 1
  rw [decide_eq_decide]
  constructor
  · intro h
    exact_mod_cast h
  · intro h
    exact_mod_cast h

/-- Witness for C10 at numeric prefix 100, trailing garbage `"abc"` (so the
`exp` value is the literal `"100abc"`), an accompanying `tx` parameter and
`now = 50`: the expiry check uses only the prefix 100 while the signature
covers the literal `100abc`. -/
theorem spec_c10_numeric_prefix_witness :
    parseInt10 (natToDecimal 100 ++ "abc") = some 100 ∧
    verifySignedUrl hmacModel "k" 50
      ("https" ++ "://" ++ "h" ++ ("/x" ++ "?" ++ serializeQuery
        (setParam [("tx", "pi_123")] "exp" (natToDecimal 100 ++ "abc") ++
          [("sig", hmacModel "k" ("/x" ++ "?" ++
            serializeQuery (setParam [("tx", "pi_123")] "exp" (natToDecimal 100 ++ "abc"))))]))) =
      some (decide (50 ≤ 100)) :=
  spec_c10_numeric_prefix hmacModel "k" 50 100 "https" "h" "/x" "abc" [("tx", "pi_123")]
    (by decide) (by decide) (by decide) (by decide) (by decide) (by decide) (by decide)
    (by
      intro c hc
      injection hc with h
      subst h
      decide)
    (hmacModel_safe _ _) (hmacModel_ne_empty _ _)

/-- C5.  Ledger gating: the handler streams asset bytes only when a sale
record keyed by the request's asset id and transaction id exists; and a
request whose transaction parameter is present and whose token verifies, but
for which no such sale record exists, terminates with the distinct
`Unauthorized download` outcome (after exactly the one ledger query). -/
theorem spec_c5_ledger_gating (env : Env) (req : DownloadRequest) :
    (∀ url, (downloadHandler env req).1 = Outcome.streamed url →
      ∃ t, req.tx = some t ∧
        env.sales.find? (fun s => s.imageId == req.imageId && s.transactionId == t) ≠ none) ∧
    (∀ t, req.tx = some t → t ≠ "" →
      verifySignedUrl env.hmac env.secret env.now (YOUR_DOMAIN ++ req.originalUrl) = some true →
      env.sales.find? (fun s => s.imageId == req.imageId && s.transactionId == t) = none →
      downloadHandler env req =
        (Outcome.unauthorizedDownload, [DbQuery.salesLookup req.imageId t])) := by
  constructor
  · intro url hout
    rcases htx : req.tx with _ | t
    · simp only [downloadHandler, htx] at hout
      exact absurd hout (by simp)
    · simp only [downloadHandler, htx] at hout
      by_cases hemp : (t == "") = true
      · rw [if_pos hemp] at hout
        exact absurd hout (by simp)
      · rw [if_neg hemp] at hout
        rcases hv : verifySignedUrl env.hmac env.secret env.now (YOUR_DOMAIN ++ req.originalUrl)
          with _ | b
        · simp only [hv] at hout
          exact absurd hout (by simp)
        · cases b with
          | false =>
            simp only [hv] at hout
            exact absurd hout (by simp)
          | true =>
            simp only [hv] at hout
            rcases hf : env.sales.find?
                (fun s => s.imageId == req.imageId && s.transactionId == t) with _ | srec
            · simp only [hf] at hout
              exact absurd hout (by simp)
            · refine ⟨t, rfl, by rw [hf]; simp⟩
  · intro t htx hne hv hf
    simp only [downloadHandler, htx]
    rw [if_neg (by simp [hne])]
    simp only [hv, hf]

/-- Witness for C5: a structurally valid, unexpired witness token against an
empty sales ledger is rejected as `Unauthorized download` after the single
ledger query. -/
theorem spec_c5_ledger_gating_witness :
    downloadHandler wEnv wReqGood =
      (Outcome.unauthorizedDownload, [DbQuery.salesLookup "42" "pi_123"]) :=
  (spec_c5_ledger_gating wEnv wReqGood).2 "pi_123" rfl (by decide) (by decide) rfl

/-- C6.  Guard ordering: (1) if the handler issued any database query then the
transaction parameter was present (and nonempty) and the verifier returned
`true`, and the first query issued is the sales-ledger lookup; (2) a missing
(or empty, hence falsy) transaction parameter terminates the request as
`Missing transaction token` with no database query; (3) a present transaction
parameter with a failing verifier terminates as `Invalid or expired link` with
no database query. -/
theorem spec_c6_guard_order (env : Env) (req : DownloadRequest) :
    ((downloadHandler env req).2 = [] ∨
      ∃ t, req.tx = some t ∧ t ≠ "" ∧
        verifySignedUrl env.hmac env.secret env.now (YOUR_DOMAIN ++ req.originalUrl) = some true ∧
        (downloadHandler env req).2.head? = some (DbQuery.salesLookup req.imageId t)) ∧
    ((req.tx = none ∨ req.tx = some "") →
      downloadHandler env req = (Outcome.missingTx, [])) ∧
    (∀ t, req.tx = some t → t ≠ "" →
      verifySignedUrl env.hmac env.secret env.now (YOUR_DOMAIN ++ req.originalUrl) = some false →
      downloadHandler env req = (Outcome.invalidLink, [])) := by
  refine ⟨?_, ?_, ?_⟩
  · rcases htx : req.tx with _ | t
    · left
      simp [downloadHandler, htx]
    · by_cases hemp : (t == "") = true
      · left
        simp [downloadHandler, htx, hemp]
      · rcases hv : verifySignedUrl env.hmac env.secret env.now (YOUR_DOMAIN ++ req.originalUrl)
          with _ | b
        · left
          simp [downloadHandler, htx, hemp, hv]
        · cases b with
          | false =>
            left
            simp [downloadHandler, htx, hemp, hv]
          | true =>
            right
            refine ⟨t, rfl, by simpa using hemp, rfl, ?_⟩
            simp only [downloadHandler, htx, if_neg hemp, hv]
            rcases hf : env.sales.find?
                (fun s => s.imageId == req.imageId && s.transactionId == t) with _ | srec
            · simp [hf]
            · simp only [hf]
              rcases him : env.images.find? (fun i => i.id == req.imageId) with _ | img
              · simp [him]
              · simp [him]
  · intro h
    rcases h with h | h <;> simp [downloadHandler, h]
  · intro t htx hne hv
    simp only [downloadHandler, htx]
    rw [if_neg (by simp [hne])]
    simp only [hv]

/-- Witness for C6: a request without `tx` ends as `Missing transaction token`
with an empty query trace, and a request with a wrong signature ends as
`Invalid or expired link` with an empty query trace. -/
theorem spec_c6_guard_order_witness :
    downloadHandler wEnv wReqMissing = (Outcome.missingTx, []) ∧
    downloadHandler wEnv wReqBad = (Outcome.invalidLink, []) :=
  ⟨(spec_c6_guard_order wEnv wReqMissing).2.1 (Or.inl rfl),
    (spec_c6_guard_order wEnv wReqBad).2.2 "pi_123" rfl (by decide) (by decide)⟩

end ImageStock
